import Mathlib

/-!
Verification of the elevator-system simulation core.

The Go sources are shallowly embedded: machine integers become `Int`
(no arithmetic in the programs can overflow 64-bit in the scenarios
modelled, and the embedding keeps exact integer semantics), the two
`[]bool` stop arrays become `List Bool` indexed by `floor - minFloor`,
the `uint64` bitmasks of the bitmask variant become `Nat` values taken
`% 2^64` wherever Go truncates, and the third-party `bitset.BitSet` of
the bitset variant is modelled as an unbounded `Nat` bit vector through
its documented operations (Set / Clear / Test / NextSet / Any / Count).
`float64` dispatcher costs become `ℚ`: every cost the Go code builds is
a sum of integers and integer halves far below 2^52, on which binary
floating point is exact, and `math.MaxFloat64` acts only as a sentinel
strictly larger than every reachable cost, modelled by `Option ℚ`.
Step's human-readable strings are outside the model.
-/

namespace ElevatorSim

/-- model.go `Direction`. -/
inductive Direction where
  | dirIdle
  | dirUp
  | dirDown
deriving DecidableEq

/-- model.go `ElevatorState`. -/
inductive ElevatorState where
  | stateIdle
  | stateMovingUp
  | stateMovingDown
  | stateDoorOpen
deriving DecidableEq

/-- model.go `RequestType`. -/
inductive RequestType where
  | hallCall
  | cabCall
deriving DecidableEq

/-- model.go `Request`. -/
structure Request where
  floor : Int
  direction : Direction
  rtype : RequestType
deriving DecidableEq

open Direction ElevatorState RequestType

/-- elevator.go `doorOpenSteps`. -/
def doorOpenSteps : Int := 2

/-- elevator.go `Elevator` (flag-array variant): two `[]bool` stop arrays
indexed by `floor - minFloor`, plus cached request bounds. -/
structure Elevator where
  id : Int
  currentFloor : Int
  state : ElevatorState
  direction : Direction
  minFloor : Int
  maxFloor : Int
  upStops : List Bool
  downStops : List Bool
  minRequest : Int
  maxRequest : Int
  doorTimer : Int
deriving DecidableEq

/-- Read stop array `l` at floor `f` (Go `l[e.idx(f)]`). Out-of-range
reads, which would panic in Go and never happen on reachable states,
are totalised to `false`. -/
def stopTest (l : List Bool) (minF f : Int) : Bool :=
  if f < minF then false else l.getD (f - minF).toNat false

/-- Write stop array `l` at floor `f` (Go `l[e.idx(f)] = b`). Out-of-range
writes, which would panic in Go and never happen on reachable states,
are totalised to a no-op. -/
def stopWrite (l : List Bool) (minF f : Int) (b : Bool) : List Bool :=
  if f < minF then l else l.set (f - minF).toNat b

/-- elevator.go `NewElevator`. -/
def newElevator (id minFloor maxFloor : Int) : Elevator :=
  { id := id
    currentFloor := minFloor
    state := stateIdle
    direction := dirIdle
    minFloor := minFloor
    maxFloor := maxFloor
    upStops := List.replicate (maxFloor - minFloor + 1).toNat false
    downStops := List.replicate (maxFloor - minFloor + 1).toNat false
    minRequest := maxFloor + 1
    maxRequest := minFloor - 1
    doorTimer := 0 }

/-- The loop body of elevator.go `Elevator.recalcBounds`: if index `i`
is marked in either array, shrink/grow the accumulated bounds to
include floor `i + minFloor`. -/
def recalcFoldF (e : Elevator) (acc : Int × Int) (i : Nat) : Int × Int :=
  if e.upStops.getD i false || e.downStops.getD i false then
    (if (i : Int) + e.minFloor < acc.1 then (i : Int) + e.minFloor else acc.1,
      if (i : Int) + e.minFloor > acc.2 then (i : Int) + e.minFloor else acc.2)
  else acc

/-- elevator.go `Elevator.recalcBounds`: rescan both arrays for new
min/max request floors, starting from the empty sentinels. -/
def recalcBounds (e : Elevator) : Elevator :=
  let p := (List.range e.upStops.length).foldl (recalcFoldF e) (e.maxFloor + 1, e.minFloor - 1)
  { e with minRequest := p.1, maxRequest := p.2 }

/-- elevator.go `Elevator.openDoor`: enter DoorOpen, clear the current
floor from both stop arrays, recalc bounds if a boundary floor was
removed. -/
def openDoor (e : Elevator) : Elevator :=
  let e1 := { e with
    state := stateDoorOpen
    doorTimer := doorOpenSteps
    upStops := stopWrite e.upStops e.minFloor e.currentFloor false
    downStops := stopWrite e.downStops e.minFloor e.currentFloor false }
  if e1.currentFloor = e1.minRequest ∨ e1.currentFloor = e1.maxRequest then
    recalcBounds e1
  else e1

/-- elevator.go `Elevator.hasStopsAbove`. -/
def hasStopsAbove (e : Elevator) : Bool :=
  e.maxRequest > e.currentFloor

/-- elevator.go `Elevator.hasStopsBelow`. -/
def hasStopsBelow (e : Elevator) : Bool :=
  e.minRequest < e.currentFloor

/-- elevator.go `Elevator.HasPendingRequests`. -/
def hasPendingRequests (e : Elevator) : Bool :=
  e.minRequest ≤ e.maxRequest

/-- elevator.go `Elevator.PendingCount`. -/
def pendingCount (e : Elevator) : Nat :=
  e.upStops.count true + e.downStops.count true

/-- The `switch r.Type` statement of elevator.go `Elevator.AddRequest`:
classify the request into a stop array. -/
def addRequestMark (e : Elevator) (r : Request) : Elevator :=
  match r.rtype with
  | hallCall =>
      if r.direction = dirUp then
        { e with upStops := stopWrite e.upStops e.minFloor r.floor true }
      else
        { e with downStops := stopWrite e.downStops e.minFloor r.floor true }
  | cabCall =>
      if r.floor > e.currentFloor then
        { e with upStops := stopWrite e.upStops e.minFloor r.floor true }
      else if r.floor < e.currentFloor then
        { e with downStops := stopWrite e.downStops e.minFloor r.floor true }
      else e

/-- The cached-boundary update statements of `Elevator.AddRequest`. -/
def addRequestBounds (e : Elevator) (rf : Int) : Elevator :=
  { e with
    minRequest := if rf < e.minRequest then rf else e.minRequest
    maxRequest := if rf > e.maxRequest then rf else e.maxRequest }

/-- The final `if e.State == StateIdle` block of `Elevator.AddRequest`:
an idle car starts moving toward the request. -/
def addRequestKick (e : Elevator) (rf : Int) : Elevator :=
  if e.state = stateIdle then
    if rf > e.currentFloor then
      { e with direction := dirUp, state := stateMovingUp }
    else if rf < e.currentFloor then
      { e with direction := dirDown, state := stateMovingDown }
    else e
  else e

/-- elevator.go `Elevator.AddRequest`, the composition of the guard,
the door-reopen shortcut, and the three statement blocks above. -/
def addRequest (e : Elevator) (r : Request) : Elevator :=
  if r.floor < e.minFloor ∨ r.floor > e.maxFloor then e
  else if r.floor = e.currentFloor ∧ (e.state = stateIdle ∨ e.state = stateDoorOpen) then
    openDoor e
  else
    addRequestKick (addRequestBounds (addRequestMark e r) r.floor) r.floor

/-- elevator.go `Elevator.shouldStop`. -/
def shouldStop (e : Elevator) (dir : Direction) : Bool :=
  if dir = dirUp then
    stopTest e.upStops e.minFloor e.currentFloor ||
      (!hasStopsAbove e && stopTest e.downStops e.minFloor e.currentFloor)
  else
    stopTest e.downStops e.minFloor e.currentFloor ||
      (!hasStopsBelow e && stopTest e.upStops e.minFloor e.currentFloor)

/-- elevator.go `Elevator.pickDirection` (LOOK policy). -/
def pickDirection (e : Elevator) : Elevator :=
  match e.direction with
  | dirUp =>
      if hasStopsAbove e then { e with state := stateMovingUp }
      else if hasStopsBelow e then { e with direction := dirDown, state := stateMovingDown }
      else { e with direction := dirIdle, state := stateIdle }
  | dirDown =>
      if hasStopsBelow e then { e with state := stateMovingDown }
      else if hasStopsAbove e then { e with direction := dirUp, state := stateMovingUp }
      else { e with direction := dirIdle, state := stateIdle }
  | dirIdle =>
      if hasStopsAbove e then { e with direction := dirUp, state := stateMovingUp }
      else if hasStopsBelow e then { e with direction := dirDown, state := stateMovingDown }
      else { e with direction := dirIdle, state := stateIdle }

/-- elevator.go `Elevator.stepDoorOpen` (message strings are out of model). -/
def stepDoorOpen (e : Elevator) : Elevator :=
  let e1 := { e with doorTimer := e.doorTimer - 1 }
  if e1.doorTimer > 0 then e1
  else pickDirection { e1 with state := stateIdle }

/-- elevator.go `Elevator.stepMove`: move one floor, then stop if
`shouldStop` says so. -/
def stepMove (e : Elevator) (dir : Direction) : Elevator :=
  let e1 :=
    if dir = dirUp then { e with currentFloor := e.currentFloor + 1 }
    else { e with currentFloor := e.currentFloor - 1 }
  if shouldStop e1 dir then openDoor e1 else e1

/-- elevator.go `Elevator.stepIdle`. -/
def stepIdle (e : Elevator) : Elevator :=
  pickDirection e

/-- elevator.go `Elevator.Step`. -/
def step (e : Elevator) : Elevator :=
  match e.state with
  | stateDoorOpen => stepDoorOpen e
  | stateMovingUp => stepMove e dirUp
  | stateMovingDown => stepMove e dirDown
  | stateIdle => stepIdle e

/-! ### Bitmask variant (`BitmaskElevator`, uint64 stop masks)

Go's `uint64` is modelled as `Nat` with explicit truncation `% 2^64`;
`uint(floor - minFloor)` conversions of negative values wrap to huge
unsigned numbers, on which every Go shift of width ≥ 64 yields 0 — the
mask helpers below reproduce exactly that behaviour. -/

/-- Go `1 << bit` as uint64, with `bit = floor - minFloor` as an `Int`
standing for Go's wrapped `uint`. -/
def bmMask (bit : Int) : Nat :=
  if 0 ≤ bit ∧ bit < 64 then 2 ^ bit.toNat else 0

/-- bitmask variant `set`. -/
def bmSet (m : Nat) (bit : Int) : Nat := m ||| bmMask bit

/-- Go `m &^ mask` (AND NOT): XOR-ing `m` with the bits it shares with
`mask` clears exactly the bits of `mask` that are present in `m`. -/
def andNot (m mask : Nat) : Nat := m ^^^ (m &&& mask)

/-- bitmask variant `clear` (Go `&^`). -/
def bmClear (m : Nat) (bit : Int) : Nat := andNot m (bmMask bit)

/-- bitmask variant `has`. -/
def bmHas (m : Nat) (bit : Int) : Bool := m &&& bmMask bit ≠ 0

/-- bitmask variant `aboveMask`: all bits strictly above `bit`
(uint64 `^0 << (bit+1)`, 0 when `bit ≥ 63` — or when the wrapped uint
is huge because `bit` was negative). -/
def aboveMask (bit : Int) : Nat :=
  if 0 ≤ bit ∧ bit < 63 then 2 ^ 64 - 2 ^ (bit.toNat + 1) else 0

/-- bitmask variant `belowMask`: all bits strictly below `bit`
(uint64 `(1 << bit) - 1`, where a shift of ≥ 64 gives 0 and the uint64
subtraction then wraps to all-ones). -/
def belowMask (bit : Int) : Nat :=
  if bit = 0 then 0
  else if 0 ≤ bit ∧ bit < 64 then 2 ^ bit.toNat - 1
  else 2 ^ 64 - 1

/-- `BitmaskElevator` (bitmask.go): same car fields, `uint64` stop sets.
`NewBitmaskElevator` panics when the floor range exceeds 64; the model
is only instantiated within that configuration bound. -/
structure BitmaskElevator where
  id : Int
  currentFloor : Int
  state : ElevatorState
  direction : Direction
  minFloor : Int
  maxFloor : Int
  upStops : Nat
  downStops : Nat
  doorTimer : Int
deriving DecidableEq

/-- `NewBitmaskElevator`. -/
def newBitmaskElevator (id minFloor maxFloor : Int) : BitmaskElevator :=
  { id := id
    currentFloor := minFloor
    state := stateIdle
    direction := dirIdle
    minFloor := minFloor
    maxFloor := maxFloor
    upStops := 0
    downStops := 0
    doorTimer := 0 }

/-- `BitmaskElevator.hasStopsAbove`. -/
def bmHasStopsAbove (e : BitmaskElevator) : Bool :=
  (e.upStops ||| e.downStops) &&& aboveMask (e.currentFloor - e.minFloor) ≠ 0

/-- `BitmaskElevator.hasStopsBelow`. -/
def bmHasStopsBelow (e : BitmaskElevator) : Bool :=
  (e.upStops ||| e.downStops) &&& belowMask (e.currentFloor - e.minFloor) ≠ 0

/-- `BitmaskElevator.openDoor`: unlike the flag-array variant, the clear
is direction-conditional, with an extra turnaround clear of the
opposite set. Go writes four `if dir == …` statements; matching on
`dir` realises the same cases (for `DirUp` the turnaround test
`hasStopsAbove` runs after the up-bit was cleared, and symmetrically
for `DirDown`). -/
def bmOpenDoor (e : BitmaskElevator) (dir : Direction) : BitmaskElevator :=
  let bit := e.currentFloor - e.minFloor
  let e1 := { e with state := stateDoorOpen, doorTimer := doorOpenSteps }
  match dir with
  | dirIdle =>
      { e1 with
        upStops := bmClear e1.upStops bit
        downStops := bmClear e1.downStops bit }
  | dirUp =>
      let e2 := { e1 with upStops := bmClear e1.upStops bit }
      if ¬bmHasStopsAbove e2 then { e2 with downStops := bmClear e2.downStops bit } else e2
  | dirDown =>
      let e2 := { e1 with downStops := bmClear e1.downStops bit }
      if ¬bmHasStopsBelow e2 then { e2 with upStops := bmClear e2.upStops bit } else e2

/-- `BitmaskElevator.AddRequest`. -/
def bmAddRequest (e : BitmaskElevator) (r : Request) : BitmaskElevator :=
  if r.floor < e.minFloor ∨ r.floor > e.maxFloor then e
  else if r.floor = e.currentFloor ∧ (e.state = stateIdle ∨ e.state = stateDoorOpen) then
    bmOpenDoor e dirIdle
  else
    let bit := r.floor - e.minFloor
    let e1 :=
      match r.rtype with
      | hallCall =>
          if r.direction = dirUp then { e with upStops := bmSet e.upStops bit }
          else { e with downStops := bmSet e.downStops bit }
      | cabCall =>
          if r.floor > e.currentFloor then { e with upStops := bmSet e.upStops bit }
          else if r.floor < e.currentFloor then { e with downStops := bmSet e.downStops bit }
          else e
    if e1.state = stateIdle then
      if r.floor > e1.currentFloor then
        { e1 with direction := dirUp, state := stateMovingUp }
      else if r.floor < e1.currentFloor then
        { e1 with direction := dirDown, state := stateMovingDown }
      else e1
    else e1

/-- `BitmaskElevator.shouldStop`. -/
def bmShouldStop (e : BitmaskElevator) (dir : Direction) : Bool :=
  let bit := e.currentFloor - e.minFloor
  if dir = dirUp then
    bmHas e.upStops bit || (!bmHasStopsAbove e && bmHas e.downStops bit)
  else
    bmHas e.downStops bit || (!bmHasStopsBelow e && bmHas e.upStops bit)

/-- `BitmaskElevator.pickDirection`. -/
def bmPickDirection (e : BitmaskElevator) : BitmaskElevator :=
  match e.direction with
  | dirUp =>
      if bmHasStopsAbove e then { e with state := stateMovingUp }
      else if bmHasStopsBelow e then { e with direction := dirDown, state := stateMovingDown }
      else { e with direction := dirIdle, state := stateIdle }
  | dirDown =>
      if bmHasStopsBelow e then { e with state := stateMovingDown }
      else if bmHasStopsAbove e then { e with direction := dirUp, state := stateMovingUp }
      else { e with direction := dirIdle, state := stateIdle }
  | dirIdle =>
      if bmHasStopsAbove e then { e with direction := dirUp, state := stateMovingUp }
      else if bmHasStopsBelow e then { e with direction := dirDown, state := stateMovingDown }
      else { e with direction := dirIdle, state := stateIdle }

/-- `BitmaskElevator.stepDoorOpen`. -/
def bmStepDoorOpen (e : BitmaskElevator) : BitmaskElevator :=
  let e1 := { e with doorTimer := e.doorTimer - 1 }
  if e1.doorTimer > 0 then e1
  else bmPickDirection { e1 with state := stateIdle }

/-- `BitmaskElevator.stepMove`. -/
def bmStepMove (e : BitmaskElevator) (dir : Direction) : BitmaskElevator :=
  let e1 :=
    if dir = dirUp then { e with currentFloor := e.currentFloor + 1 }
    else { e with currentFloor := e.currentFloor - 1 }
  if bmShouldStop e1 dir then bmOpenDoor e1 dir else e1

/-- `BitmaskElevator.stepIdle`. -/
def bmStepIdle (e : BitmaskElevator) : BitmaskElevator :=
  bmPickDirection e

/-- `BitmaskElevator.Step`. -/
def bmStep (e : BitmaskElevator) : BitmaskElevator :=
  match e.state with
  | stateDoorOpen => bmStepDoorOpen e
  | stateMovingUp => bmStepMove e dirUp
  | stateMovingDown => bmStepMove e dirDown
  | stateIdle => bmStepIdle e

/-! ### Bitset variant (`BitsetElevator`, bits-and-blooms/bitset)

The third-party `bitset.BitSet` is modelled as an unbounded `Nat` bit
vector via its documented API: `Set`/`Clear`/`Test` address a single
bit, `NextSet i` finds the smallest set bit `≥ i`. Indices come from
`uint(floor - minFloor)`; call sites only ever produce in-range indices
on the states considered, and the model totalises negative indices to
no-ops. -/

/-- bitset `Test`. -/
def bsTest (m : Nat) (i : Int) : Bool :=
  if 0 ≤ i then m.testBit i.toNat else false

/-- bitset `Set`. -/
def bsSet (m : Nat) (i : Int) : Nat :=
  if 0 ≤ i then m ||| 2 ^ i.toNat else m

/-- bitset `Clear`. -/
def bsClear (m : Nat) (i : Int) : Nat :=
  if 0 ≤ i then andNot m (2 ^ i.toNat) else m

/-- `∃ b, start ≤ b < bound` with bit `b` set — the composite
`NextSet(start)` query followed by the `< bound` guard used by
`BitsetElevator.hasStopsAbove` / `hasStopsBelow`. -/
def bsAnyIn (m : Nat) (start bound : Int) : Bool :=
  (List.range bound.toNat).any fun b => decide (start ≤ (b : Int)) && m.testBit b

/-- `BitsetElevator` (bitset.go). -/
structure BitsetElevator where
  id : Int
  currentFloor : Int
  state : ElevatorState
  direction : Direction
  minFloor : Int
  maxFloor : Int
  upStops : Nat
  downStops : Nat
  doorTimer : Int
deriving DecidableEq

/-- `NewBitsetElevator`. -/
def newBitsetElevator (id minFloor maxFloor : Int) : BitsetElevator :=
  { id := id
    currentFloor := minFloor
    state := stateIdle
    direction := dirIdle
    minFloor := minFloor
    maxFloor := maxFloor
    upStops := 0
    downStops := 0
    doorTimer := 0 }

/-- `BitsetElevator.hasStopsAbove`: `NextSet(idx+1)` on each set,
accepted when below `n = maxFloor - minFloor + 1`. -/
def bsHasStopsAbove (e : BitsetElevator) : Bool :=
  let start := (e.currentFloor - e.minFloor) + 1
  let n := e.maxFloor - e.minFloor + 1
  bsAnyIn e.upStops start n || bsAnyIn e.downStops start n

/-- `BitsetElevator.hasStopsBelow`: any set bit in `[0, idx)`. -/
def bsHasStopsBelow (e : BitsetElevator) : Bool :=
  let cur := e.currentFloor - e.minFloor
  if cur ≤ 0 then false
  else bsAnyIn e.upStops 0 cur || bsAnyIn e.downStops 0 cur

/-- `BitsetElevator.openDoor`: direction-conditional clear with
turnaround clear, identical in structure to the bitmask variant
(Go's four `if dir == …` statements realised as a match on `dir`). -/
def bsOpenDoor (e : BitsetElevator) (dir : Direction) : BitsetElevator :=
  let i := e.currentFloor - e.minFloor
  let e1 := { e with state := stateDoorOpen, doorTimer := doorOpenSteps }
  match dir with
  | dirIdle =>
      { e1 with
        upStops := bsClear e1.upStops i
        downStops := bsClear e1.downStops i }
  | dirUp =>
      let e2 := { e1 with upStops := bsClear e1.upStops i }
      if ¬bsHasStopsAbove e2 then { e2 with downStops := bsClear e2.downStops i } else e2
  | dirDown =>
      let e2 := { e1 with downStops := bsClear e1.downStops i }
      if ¬bsHasStopsBelow e2 then { e2 with upStops := bsClear e2.upStops i } else e2

/-- `BitsetElevator.AddRequest`. -/
def bsAddRequest (e : BitsetElevator) (r : Request) : BitsetElevator :=
  if r.floor < e.minFloor ∨ r.floor > e.maxFloor then e
  else if r.floor = e.currentFloor ∧ (e.state = stateIdle ∨ e.state = stateDoorOpen) then
    bsOpenDoor e dirIdle
  else
    let i := r.floor - e.minFloor
    let e1 :=
      match r.rtype with
      | hallCall =>
          if r.direction = dirUp then { e with upStops := bsSet e.upStops i }
          else { e with downStops := bsSet e.downStops i }
      | cabCall =>
          if r.floor > e.currentFloor then { e with upStops := bsSet e.upStops i }
          else if r.floor < e.currentFloor then { e with downStops := bsSet e.downStops i }
          else e
    if e1.state = stateIdle then
      if r.floor > e1.currentFloor then
        { e1 with direction := dirUp, state := stateMovingUp }
      else if r.floor < e1.currentFloor then
        { e1 with direction := dirDown, state := stateMovingDown }
      else e1
    else e1

/-- `BitsetElevator.shouldStop`. -/
def bsShouldStop (e : BitsetElevator) (dir : Direction) : Bool :=
  let i := e.currentFloor - e.minFloor
  if dir = dirUp then
    bsTest e.upStops i || (!bsHasStopsAbove e && bsTest e.downStops i)
  else
    bsTest e.downStops i || (!bsHasStopsBelow e && bsTest e.upStops i)

/-- `BitsetElevator.pickDirection`. -/
def bsPickDirection (e : BitsetElevator) : BitsetElevator :=
  match e.direction with
  | dirUp =>
      if bsHasStopsAbove e then { e with state := stateMovingUp }
      else if bsHasStopsBelow e then { e with direction := dirDown, state := stateMovingDown }
      else { e with direction := dirIdle, state := stateIdle }
  | dirDown =>
      if bsHasStopsBelow e then { e with state := stateMovingDown }
      else if bsHasStopsAbove e then { e with direction := dirUp, state := stateMovingUp }
      else { e with direction := dirIdle, state := stateIdle }
  | dirIdle =>
      if bsHasStopsAbove e then { e with direction := dirUp, state := stateMovingUp }
      else if bsHasStopsBelow e then { e with direction := dirDown, state := stateMovingDown }
      else { e with direction := dirIdle, state := stateIdle }

/-- `BitsetElevator.stepDoorOpen`. -/
def bsStepDoorOpen (e : BitsetElevator) : BitsetElevator :=
  let e1 := { e with doorTimer := e.doorTimer - 1 }
  if e1.doorTimer > 0 then e1
  else bsPickDirection { e1 with state := stateIdle }

/-- `BitsetElevator.stepMove`. -/
def bsStepMove (e : BitsetElevator) (dir : Direction) : BitsetElevator :=
  let e1 :=
    if dir = dirUp then { e with currentFloor := e.currentFloor + 1 }
    else { e with currentFloor := e.currentFloor - 1 }
  if bsShouldStop e1 dir then bsOpenDoor e1 dir else e1

/-- `BitsetElevator.stepIdle`. -/
def bsStepIdle (e : BitsetElevator) : BitsetElevator :=
  bsPickDirection e

/-- `BitsetElevator.Step`. -/
def bsStep (e : BitsetElevator) : BitsetElevator :=
  match e.state with
  | stateDoorOpen => bsStepDoorOpen e
  | stateMovingUp => bsStepMove e dirUp
  | stateMovingDown => bsStepMove e dirDown
  | stateIdle => bsStepIdle e

/-! ### Dispatcher (dispatcher.go)

Costs are `float64` in Go; every cost built there is a sum of small
integers and exact halves, so `ℚ` models it exactly. `math.MaxFloat64`
is only a sentinel strictly above every real cost, modelled by the
`none` arm of an `Option ℚ` accumulator. Go's `Dispatch` mutates the
selected car in place and returns a pointer to it; the model returns
the selected index together with the updated dispatcher. -/

/-- dispatcher.go `Dispatcher`. -/
structure Dispatcher where
  elevators : List Elevator
  minFloor : Int
  maxFloor : Int
deriving DecidableEq

/-- dispatcher.go `NewDispatcher`. -/
def newDispatcher (n : Nat) (minFloor maxFloor : Int) : Dispatcher :=
  { elevators := (List.range n).map fun i => newElevator ((i : Int) + 1) minFloor maxFloor
    minFloor := minFloor
    maxFloor := maxFloor }

/-- dispatcher.go `Dispatcher.cost`. -/
def cost (d : Dispatcher) (e : Elevator) (r : Request) : ℚ :=
  let distance : Int := |e.currentFloor - r.floor|
  if e.state = stateIdle ∨ e.direction = dirIdle then
    (distance : ℚ) + (1 / 2 : ℚ) * (pendingCount e : ℚ)
  else if (e.direction = dirUp ∧ r.floor ≥ e.currentFloor) ∨
      (e.direction = dirDown ∧ r.floor ≤ e.currentFloor) then
    if r.rtype = cabCall ∨ r.direction = e.direction then
      (distance : ℚ) + (1 / 2 : ℚ) * (pendingCount e : ℚ)
    else
      (distance : ℚ) + ((d.maxFloor - d.minFloor : Int) : ℚ) / 2 +
        (1 / 2 : ℚ) * (pendingCount e : ℚ)
  else
    let detour : Int :=
      if e.direction = dirUp then (d.maxFloor - e.currentFloor) + (d.maxFloor - r.floor)
      else (e.currentFloor - d.minFloor) + (r.floor - d.minFloor)
    (detour : ℚ) + (1 / 2 : ℚ) * (pendingCount e : ℚ)

/-- The selection loop of dispatcher.go `Dispatcher.Dispatch`: walk the
cars keeping the first strictly-cheaper index (`cost < bestCost`). -/
def bestElevator (d : Dispatcher) (r : Request) :
    List Elevator → Nat → Option (Nat × ℚ) → Option (Nat × ℚ)
  | [], _, acc => acc
  | e :: es, i, acc =>
      let c := cost d e r
      let acc1 :=
        match acc with
        | none => some (i, c)
        | some (bi, bc) => if c < bc then some (i, c) else some (bi, bc)
      bestElevator d r es (i + 1) acc1

/-- dispatcher.go `Dispatcher.Dispatch`: select the minimum-cost car and
route the request to it via `AddRequest`. -/
def dispatch (d : Dispatcher) (r : Request) : Option (Nat × Dispatcher) :=
  match bestElevator d r d.elevators 0 none with
  | none => none
  | some (bi, _) =>
      some (bi,
        { d with elevators := d.elevators.mapIdx fun j e => if j = bi then addRequest e r else e })

/-! ### Run harness

The repository's test drivers (`runUntilIdle`, `runBitmaskUntilIdle`,
`runBitsetUntilIdle`) apply `Step` repeatedly and record the current
floor whenever the step has just opened the door (state `DoorOpen` with
a full door timer). `runTrace` generalises them to an arbitrary
interleaving of `AddRequest` and `Step` calls, returning the ordered
stop floors. -/

/-- One external call on a car: an `AddRequest` or a `Step`. -/
inductive Ev where
  | add (r : Request)
  | tick
deriving DecidableEq

/-- Ordered stop floors produced by running the events on a flag-array
car, recording stops exactly as the repository's `runUntilIdle` does. -/
def runTrace (e : Elevator) : List Ev → List Int
  | [] => []
  | Ev.add r :: evs => runTrace (addRequest e r) evs
  | Ev.tick :: evs =>
      let e1 := step e
      if e1.state = stateDoorOpen ∧ e1.doorTimer = doorOpenSteps then
        e1.currentFloor :: runTrace e1 evs
      else runTrace e1 evs

/-- `runTrace` for the bitmask variant (`runBitmaskUntilIdle`). -/
def bmRunTrace (e : BitmaskElevator) : List Ev → List Int
  | [] => []
  | Ev.add r :: evs => bmRunTrace (bmAddRequest e r) evs
  | Ev.tick :: evs =>
      let e1 := bmStep e
      if e1.state = stateDoorOpen ∧ e1.doorTimer = doorOpenSteps then
        e1.currentFloor :: bmRunTrace e1 evs
      else bmRunTrace e1 evs

/-- `runTrace` for the bitset variant (`runBitsetUntilIdle`). -/
def bsRunTrace (e : BitsetElevator) : List Ev → List Int
  | [] => []
  | Ev.add r :: evs => bsRunTrace (bsAddRequest e r) evs
  | Ev.tick :: evs =>
      let e1 := bsStep e
      if e1.state = stateDoorOpen ∧ e1.doorTimer = doorOpenSteps then
        e1.currentFloor :: bsRunTrace e1 evs
      else bsRunTrace e1 evs

/-- The request sequence exhibiting the divergence between the stop-set
variants: an up hall call and a down hall call at floor 3 plus a cab
call to floor 5, issued to a fresh car on floors 1..5. -/
def divergenceEvents : List Ev :=
  [Ev.add ⟨3, dirUp, hallCall⟩, Ev.add ⟨3, dirDown, hallCall⟩,
    Ev.add ⟨5, dirIdle, cabCall⟩] ++ List.replicate 12 Ev.tick

/-! ### Helper lemmas about the stop-array and bit primitives -/

theorem stopWrite_length (l : List Bool) (minF f : Int) (b : Bool) :
    (stopWrite l minF f b).length = l.length := by
  unfold stopWrite
  split <;> simp

theorem stopTest_stopWrite_self (l : List Bool) (minF f : Int) :
    stopTest (stopWrite l minF f false) minF f = false := by
  unfold stopTest stopWrite
  split
  · rfl
  · rcases Nat.lt_or_ge (f - minF).toNat l.length with h | h
    · simp [List.getD, List.getElem?_set_self (by simpa using h)]
    · have h2 : (l.set (f - minF).toNat false).length ≤ (f - minF).toNat := by simpa using h
      simp [List.getD, List.getElem?_eq_none h2]

theorem stopTest_stopWrite_ne (l : List Bool) (minF f g : Int) (b : Bool) (hfg : f ≠ g) :
    stopTest (stopWrite l minF g b) minF f = stopTest l minF f := by
  unfold stopTest stopWrite
  split
  · rfl
  · rename_i hf
    split
    · rfl
    · rename_i hg
      have hf2 : minF ≤ f := le_of_not_lt hf
      have hg2 : minF ≤ g := le_of_not_lt hg
      have hidx : (f - minF).toNat ≠ (g - minF).toNat := by
        intro hEq
        apply hfg
        have h1 : (0 : Int) ≤ f - minF := by omega
        have h2 : (0 : Int) ≤ g - minF := by omega
        omega
      simp [List.getD, List.getElem?_set_ne (Ne.symm hidx)]

theorem stopTest_stopWrite_true (l : List Bool) (minF f : Int)
    (hf : minF ≤ f) (hlen : (f - minF).toNat < l.length) :
    stopTest (stopWrite l minF f true) minF f = true := by
  unfold stopTest stopWrite
  rw [if_neg (not_lt.mpr hf), if_neg (not_lt.mpr hf)]
  simp [List.getD, List.getElem?_set_self (by simpa using hlen)]

theorem testBit_andNot (m mask : Nat) (i : Nat) :
    (andNot m mask).testBit i = (m.testBit i && !mask.testBit i) := by
  unfold andNot
  rw [Nat.testBit_xor, Nat.testBit_and]
  cases m.testBit i <;> cases mask.testBit i <;> rfl

/-! Component lemmas: which fields each operation leaves untouched. -/

@[simp] theorem recalcBounds_state (e : Elevator) : (recalcBounds e).state = e.state := rfl

@[simp] theorem recalcBounds_doorTimer (e : Elevator) :
    (recalcBounds e).doorTimer = e.doorTimer := rfl

@[simp] theorem recalcBounds_upStops (e : Elevator) : (recalcBounds e).upStops = e.upStops := rfl

@[simp] theorem recalcBounds_downStops (e : Elevator) :
    (recalcBounds e).downStops = e.downStops := rfl

@[simp] theorem recalcBounds_currentFloor (e : Elevator) :
    (recalcBounds e).currentFloor = e.currentFloor := rfl

@[simp] theorem recalcBounds_minFloor (e : Elevator) : (recalcBounds e).minFloor = e.minFloor :=
  rfl

@[simp] theorem recalcBounds_maxFloor (e : Elevator) : (recalcBounds e).maxFloor = e.maxFloor :=
  rfl

@[simp] theorem recalcBounds_direction (e : Elevator) :
    (recalcBounds e).direction = e.direction := rfl

@[simp] theorem openDoor_state (e : Elevator) : (openDoor e).state = stateDoorOpen := by
  unfold openDoor
  dsimp only
  split <;> rfl

@[simp] theorem openDoor_doorTimer (e : Elevator) : (openDoor e).doorTimer = doorOpenSteps := by
  unfold openDoor
  dsimp only
  split <;> rfl

@[simp] theorem openDoor_upStops (e : Elevator) :
    (openDoor e).upStops = stopWrite e.upStops e.minFloor e.currentFloor false := by
  unfold openDoor
  dsimp only
  split <;> rfl

@[simp] theorem openDoor_downStops (e : Elevator) :
    (openDoor e).downStops = stopWrite e.downStops e.minFloor e.currentFloor false := by
  unfold openDoor
  dsimp only
  split <;> rfl

@[simp] theorem openDoor_currentFloor (e : Elevator) :
    (openDoor e).currentFloor = e.currentFloor := by
  unfold openDoor
  dsimp only
  split <;> rfl

@[simp] theorem openDoor_minFloor (e : Elevator) : (openDoor e).minFloor = e.minFloor := by
  unfold openDoor
  dsimp only
  split <;> rfl

@[simp] theorem openDoor_maxFloor (e : Elevator) : (openDoor e).maxFloor = e.maxFloor := by
  unfold openDoor
  dsimp only
  split <;> rfl

@[simp] theorem openDoor_direction (e : Elevator) : (openDoor e).direction = e.direction := by
  unfold openDoor
  dsimp only
  split <;> rfl

@[simp] theorem addRequestMark_state (e : Elevator) (r : Request) :
    (addRequestMark e r).state = e.state := by
  unfold addRequestMark
  rcases r with ⟨rf, rd, rt⟩
  cases rt <;> dsimp only <;> split <;> first | rfl | (split <;> rfl)

@[simp] theorem addRequestMark_direction (e : Elevator) (r : Request) :
    (addRequestMark e r).direction = e.direction := by
  unfold addRequestMark
  rcases r with ⟨rf, rd, rt⟩
  cases rt <;> dsimp only <;> split <;> first | rfl | (split <;> rfl)

@[simp] theorem addRequestMark_currentFloor (e : Elevator) (r : Request) :
    (addRequestMark e r).currentFloor = e.currentFloor := by
  unfold addRequestMark
  rcases r with ⟨rf, rd, rt⟩
  cases rt <;> dsimp only <;> split <;> first | rfl | (split <;> rfl)

@[simp] theorem addRequestMark_minFloor (e : Elevator) (r : Request) :
    (addRequestMark e r).minFloor = e.minFloor := by
  unfold addRequestMark
  rcases r with ⟨rf, rd, rt⟩
  cases rt <;> dsimp only <;> split <;> first | rfl | (split <;> rfl)

@[simp] theorem addRequestMark_maxFloor (e : Elevator) (r : Request) :
    (addRequestMark e r).maxFloor = e.maxFloor := by
  unfold addRequestMark
  rcases r with ⟨rf, rd, rt⟩
  cases rt <;> dsimp only <;> split <;> first | rfl | (split <;> rfl)

@[simp] theorem addRequestMark_minRequest (e : Elevator) (r : Request) :
    (addRequestMark e r).minRequest = e.minRequest := by
  unfold addRequestMark
  rcases r with ⟨rf, rd, rt⟩
  cases rt <;> dsimp only <;> split <;> first | rfl | (split <;> rfl)

@[simp] theorem addRequestMark_maxRequest (e : Elevator) (r : Request) :
    (addRequestMark e r).maxRequest = e.maxRequest := by
  unfold addRequestMark
  rcases r with ⟨rf, rd, rt⟩
  cases rt <;> dsimp only <;> split <;> first | rfl | (split <;> rfl)

@[simp] theorem addRequestMark_doorTimer (e : Elevator) (r : Request) :
    (addRequestMark e r).doorTimer = e.doorTimer := by
  unfold addRequestMark
  rcases r with ⟨rf, rd, rt⟩
  cases rt <;> dsimp only <;> split <;> first | rfl | (split <;> rfl)

@[simp] theorem addRequestBounds_upStops (e : Elevator) (rf : Int) :
    (addRequestBounds e rf).upStops = e.upStops := rfl

@[simp] theorem addRequestBounds_downStops (e : Elevator) (rf : Int) :
    (addRequestBounds e rf).downStops = e.downStops := rfl

@[simp] theorem addRequestBounds_state (e : Elevator) (rf : Int) :
    (addRequestBounds e rf).state = e.state := rfl

@[simp] theorem addRequestBounds_direction (e : Elevator) (rf : Int) :
    (addRequestBounds e rf).direction = e.direction := rfl

@[simp] theorem addRequestBounds_currentFloor (e : Elevator) (rf : Int) :
    (addRequestBounds e rf).currentFloor = e.currentFloor := rfl

@[simp] theorem addRequestBounds_minFloor (e : Elevator) (rf : Int) :
    (addRequestBounds e rf).minFloor = e.minFloor := rfl

@[simp] theorem addRequestBounds_maxFloor (e : Elevator) (rf : Int) :
    (addRequestBounds e rf).maxFloor = e.maxFloor := rfl

@[simp] theorem addRequestBounds_doorTimer (e : Elevator) (rf : Int) :
    (addRequestBounds e rf).doorTimer = e.doorTimer := rfl

@[simp] theorem addRequestKick_upStops (e : Elevator) (rf : Int) :
    (addRequestKick e rf).upStops = e.upStops := by
  unfold addRequestKick
  split <;> first | rfl | (split <;> first | rfl | (split <;> rfl))

@[simp] theorem addRequestKick_downStops (e : Elevator) (rf : Int) :
    (addRequestKick e rf).downStops = e.downStops := by
  unfold addRequestKick
  split <;> first | rfl | (split <;> first | rfl | (split <;> rfl))

@[simp] theorem addRequestKick_currentFloor (e : Elevator) (rf : Int) :
    (addRequestKick e rf).currentFloor = e.currentFloor := by
  unfold addRequestKick
  split <;> first | rfl | (split <;> first | rfl | (split <;> rfl))

@[simp] theorem addRequestKick_minFloor (e : Elevator) (rf : Int) :
    (addRequestKick e rf).minFloor = e.minFloor := by
  unfold addRequestKick
  split <;> first | rfl | (split <;> first | rfl | (split <;> rfl))

@[simp] theorem addRequestKick_maxFloor (e : Elevator) (rf : Int) :
    (addRequestKick e rf).maxFloor = e.maxFloor := by
  unfold addRequestKick
  split <;> first | rfl | (split <;> first | rfl | (split <;> rfl))

@[simp] theorem addRequestKick_minRequest (e : Elevator) (rf : Int) :
    (addRequestKick e rf).minRequest = e.minRequest := by
  unfold addRequestKick
  split <;> first | rfl | (split <;> first | rfl | (split <;> rfl))

@[simp] theorem addRequestKick_maxRequest (e : Elevator) (rf : Int) :
    (addRequestKick e rf).maxRequest = e.maxRequest := by
  unfold addRequestKick
  split <;> first | rfl | (split <;> first | rfl | (split <;> rfl))

@[simp] theorem addRequestKick_doorTimer (e : Elevator) (rf : Int) :
    (addRequestKick e rf).doorTimer = e.doorTimer := by
  unfold addRequestKick
  split <;> first | rfl | (split <;> first | rfl | (split <;> rfl))

@[simp] theorem pickDirection_upStops (e : Elevator) :
    (pickDirection e).upStops = e.upStops := by
  unfold pickDirection
  rcases e with ⟨i, cf, st, dr, mf, xf, u, d, mr, xr, t⟩
  cases dr <;> dsimp only <;> split <;> first | rfl | (split <;> rfl)

@[simp] theorem pickDirection_downStops (e : Elevator) :
    (pickDirection e).downStops = e.downStops := by
  unfold pickDirection
  rcases e with ⟨i, cf, st, dr, mf, xf, u, d, mr, xr, t⟩
  cases dr <;> dsimp only <;> split <;> first | rfl | (split <;> rfl)

@[simp] theorem pickDirection_currentFloor (e : Elevator) :
    (pickDirection e).currentFloor = e.currentFloor := by
  unfold pickDirection
  rcases e with ⟨i, cf, st, dr, mf, xf, u, d, mr, xr, t⟩
  cases dr <;> dsimp only <;> split <;> first | rfl | (split <;> rfl)

@[simp] theorem pickDirection_minFloor (e : Elevator) :
    (pickDirection e).minFloor = e.minFloor := by
  unfold pickDirection
  rcases e with ⟨i, cf, st, dr, mf, xf, u, d, mr, xr, t⟩
  cases dr <;> dsimp only <;> split <;> first | rfl | (split <;> rfl)

@[simp] theorem pickDirection_maxFloor (e : Elevator) :
    (pickDirection e).maxFloor = e.maxFloor := by
  unfold pickDirection
  rcases e with ⟨i, cf, st, dr, mf, xf, u, d, mr, xr, t⟩
  cases dr <;> dsimp only <;> split <;> first | rfl | (split <;> rfl)

@[simp] theorem pickDirection_minRequest (e : Elevator) :
    (pickDirection e).minRequest = e.minRequest := by
  unfold pickDirection
  rcases e with ⟨i, cf, st, dr, mf, xf, u, d, mr, xr, t⟩
  cases dr <;> dsimp only <;> split <;> first | rfl | (split <;> rfl)

@[simp] theorem pickDirection_maxRequest (e : Elevator) :
    (pickDirection e).maxRequest = e.maxRequest := by
  unfold pickDirection
  rcases e with ⟨i, cf, st, dr, mf, xf, u, d, mr, xr, t⟩
  cases dr <;> dsimp only <;> split <;> first | rfl | (split <;> rfl)

@[simp] theorem pickDirection_doorTimer (e : Elevator) :
    (pickDirection e).doorTimer = e.doorTimer := by
  unfold pickDirection
  rcases e with ⟨i, cf, st, dr, mf, xf, u, d, mr, xr, t⟩
  cases dr <;> dsimp only <;> split <;> first | rfl | (split <;> rfl)

/-! ### Claim C1: stop-order equivalence of the three variants

The flag-array `openDoor` clears the current floor from both stop
arrays unconditionally, while the bitmask and bitset `openDoor` clear
direction-conditionally (with a turnaround clear). On the request
sequence `divergenceEvents` the flag-array car, having stopped at
floor 3 for the up hall call, also wipes the down hall call at 3 and
stops at `[3, 5]`; the other two variants keep the down call and stop
at `[3, 5, 3]`. -/

/-- `c2Pre`: the flag-array car on floors 1..5 after the three requests
of `divergenceEvents`, one step before its first stop: at floor 2,
moving up, with up-stops {3, 5} and down-stops {3}. -/
def c2Pre : Elevator :=
  step (addRequest (addRequest (addRequest (newElevator 1 1 5)
    ⟨3, dirUp, hallCall⟩) ⟨3, dirDown, hallCall⟩) ⟨5, dirIdle, cabCall⟩)

/-- C1: the three StopSet variants do NOT produce the same ordered stop
sequence on identical input sequences. On `divergenceEvents` (three
`AddRequest`s then twelve `Step`s from identical floor bounds 1..5) the
flag-array car stops at `[3, 5]` while the bitmask and bitset cars stop
at `[3, 5, 3]`, contradicting the required equivalence property the
repository's own cross-implementation tests assert. -/
theorem claim1_stop_order_divergence :
    runTrace (newElevator 1 1 5) divergenceEvents = [3, 5] ∧
    bmRunTrace (newBitmaskElevator 1 1 5) divergenceEvents = [3, 5, 3] ∧
    bsRunTrace (newBitsetElevator 1 1 5) divergenceEvents = [3, 5, 3] ∧
    runTrace (newElevator 1 1 5) divergenceEvents ≠
      bmRunTrace (newBitmaskElevator 1 1 5) divergenceEvents := by
  refine ⟨by decide, by decide, by decide, by decide⟩

/-- C2 counterexample: in the reachable state `c2Pre` (moving up at
floor 2, up-stops {3, 5}, down-stops {3}) the next step stops at
floor 3. Only the up-set caused the stop — a pending stop (floor 5)
remains strictly above, so the down-set's stop condition is false — yet
the flag-array `openDoor` also clears the down-set mark at floor 3. -/
theorem claim2_counterexample :
    c2Pre.state = stateMovingUp ∧
    stopTest c2Pre.upStops c2Pre.minFloor 3 = true ∧
    stopTest c2Pre.downStops c2Pre.minFloor 3 = true ∧
    stopTest c2Pre.upStops c2Pre.minFloor 5 = true ∧
    (step c2Pre).currentFloor = 3 ∧
    (step c2Pre).state = stateDoorOpen ∧
    hasStopsAbove (step c2Pre) = true ∧
    stopTest (step c2Pre).downStops c2Pre.minFloor 3 = false := by
  refine ⟨by decide, by decide, by decide, by decide, by decide, by decide, by decide, by decide⟩

/-! ### Claim C9: out-of-range requests are silently ignored -/

/-- C9: for every car state of every variant, an `AddRequest` whose
floor lies outside `[minFloor, maxFloor]` returns with the car's entire
state unchanged (the guard returns before any mutation), and no error
is signalled (the functions are total). -/
theorem claim9_out_of_range_ignored :
    (∀ (e : Elevator) (r : Request),
      r.floor < e.minFloor ∨ r.floor > e.maxFloor → addRequest e r = e) ∧
    (∀ (e : BitmaskElevator) (r : Request),
      r.floor < e.minFloor ∨ r.floor > e.maxFloor → bmAddRequest e r = e) ∧
    (∀ (e : BitsetElevator) (r : Request),
      r.floor < e.minFloor ∨ r.floor > e.maxFloor → bsAddRequest e r = e) := by
  refine ⟨fun e r h => ?_, fun e r h => ?_, fun e r h => ?_⟩
  · unfold addRequest
    rw [if_pos h]
  · unfold bmAddRequest
    rw [if_pos h]
  · unfold bsAddRequest
    rw [if_pos h]

/-- Witness for C9 at a concrete input: floor 9 is out of range for a
fresh car on floors 1..5 in each variant. -/
theorem claim9_witness :
    addRequest (newElevator 1 1 5) ⟨9, dirIdle, cabCall⟩ = newElevator 1 1 5 ∧
    bmAddRequest (newBitmaskElevator 1 1 5) ⟨9, dirIdle, cabCall⟩ = newBitmaskElevator 1 1 5 ∧
    bsAddRequest (newBitsetElevator 1 1 5) ⟨9, dirIdle, cabCall⟩ = newBitsetElevator 1 1 5 :=
  ⟨claim9_out_of_range_ignored.1 _ _ (by decide),
    claim9_out_of_range_ignored.2.1 _ _ (by decide),
    claim9_out_of_range_ignored.2.2 _ _ (by decide)⟩

/-! ### Claim C5: in-range requests are never silently discarded -/

/-- `c5Pre`: a flag-array car on floors 1..5 one step after accepting a
cab call to floor 3 — at floor 2, state MovingUp. -/
def c5Pre : Elevator :=
  step (addRequest (newElevator 1 1 5) ⟨3, dirIdle, cabCall⟩)

/-- C5 counterexample: in the reachable state `c5Pre` (moving up at
floor 2), the in-range cab call to the car's current floor 2 neither
marks any floor in a stop-set nor opens the door: both stop arrays are
returned untouched (with no mark at floor 2) and the state remains
MovingUp. The call is silently discarded — only the cached
`minRequest` bound changes, from 3 to 2. -/
theorem claim5_counterexample :
    c5Pre.minFloor ≤ 2 ∧ (2 : Int) ≤ c5Pre.maxFloor ∧
    c5Pre.state = stateMovingUp ∧
    (addRequest c5Pre ⟨2, dirIdle, cabCall⟩).upStops = c5Pre.upStops ∧
    (addRequest c5Pre ⟨2, dirIdle, cabCall⟩).downStops = c5Pre.downStops ∧
    stopTest c5Pre.upStops c5Pre.minFloor 2 = false ∧
    stopTest c5Pre.downStops c5Pre.minFloor 2 = false ∧
    (addRequest c5Pre ⟨2, dirIdle, cabCall⟩).state = stateMovingUp ∧
    c5Pre.minRequest = 3 ∧
    (addRequest c5Pre ⟨2, dirIdle, cabCall⟩).minRequest = 2 := by
  refine ⟨by decide, by decide, by decide, by decide, by decide, by decide, by decide,
    by decide, by decide, by decide⟩

/-- C5 amended: an in-range `AddRequest` on a flag-array car either
marks the request floor in one of the two stop arrays or immediately
opens the door — except for a cab call at the car's current floor while
the car is neither Idle nor DoorOpen, which is silently discarded.
The stop arrays are assumed to have the length `NewElevator`
allocates. -/
theorem claim5_amended (e : Elevator) (r : Request)
    (hlo : e.minFloor ≤ r.floor) (hhi : r.floor ≤ e.maxFloor)
    (hulen : e.upStops.length = (e.maxFloor - e.minFloor + 1).toNat)
    (hdlen : e.downStops.length = (e.maxFloor - e.minFloor + 1).toNat)
    (hexc : ¬(r.rtype = cabCall ∧ r.floor = e.currentFloor ∧
      e.state ≠ stateIdle ∧ e.state ≠ stateDoorOpen)) :
    stopTest (addRequest e r).upStops e.minFloor r.floor = true ∨
    stopTest (addRequest e r).downStops e.minFloor r.floor = true ∨
    ((addRequest e r).state = stateDoorOpen ∧
      (addRequest e r).doorTimer = doorOpenSteps) := by
  have hup : ((r.floor - e.minFloor).toNat < e.upStops.length) := by
    rw [hulen]; omega
  have hdn : ((r.floor - e.minFloor).toNat < e.downStops.length) := by
    rw [hdlen]; omega
  unfold addRequest
  rw [if_neg (by omega : ¬(r.floor < e.minFloor ∨ r.floor > e.maxFloor))]
  by_cases hod : r.floor = e.currentFloor ∧ (e.state = stateIdle ∨ e.state = stateDoorOpen)
  · rw [if_pos hod]
    exact Or.inr (Or.inr ⟨openDoor_state e, openDoor_doorTimer e⟩)
  · rw [if_neg hod]
    rcases r with ⟨rf, rd, rt⟩
    dsimp only at *
    cases rt
    · by_cases hdir : rd = dirUp
      · refine Or.inl ?_
        simp only [addRequestKick_upStops, addRequestBounds_upStops, addRequestMark, hdir,
          if_pos rfl]
        exact stopTest_stopWrite_true _ _ _ hlo hup
      · refine Or.inr (Or.inl ?_)
        simp only [addRequestKick_downStops, addRequestBounds_downStops, addRequestMark,
          if_neg hdir]
        exact stopTest_stopWrite_true _ _ _ hlo hdn
    · by_cases hgt : rf > e.currentFloor
      · refine Or.inl ?_
        simp only [addRequestKick_upStops, addRequestBounds_upStops, addRequestMark,
          if_pos hgt]
        exact stopTest_stopWrite_true _ _ _ hlo hup
      · by_cases hlt : rf < e.currentFloor
        · refine Or.inr (Or.inl ?_)
          simp only [addRequestKick_downStops, addRequestBounds_downStops, addRequestMark,
            if_neg hgt, if_pos hlt]
          exact stopTest_stopWrite_true _ _ _ hlo hdn
        · exfalso
          have heq : rf = e.currentFloor := by omega
          rcases e1 : e.state with h | h | h | h
          · exact hod ⟨heq, Or.inl e1⟩
          · exact hexc ⟨rfl, heq, by simp [e1], by simp [e1]⟩
          · exact hexc ⟨rfl, heq, by simp [e1], by simp [e1]⟩
          · exact hod ⟨heq, Or.inr e1⟩

/-! ### Claim C2: what a stop clears, and the door timer -/

theorem andNot_land (m mask : Nat) : andNot m mask &&& mask = 0 := by
  apply Nat.eq_of_testBit_eq
  intro i
  rw [Nat.testBit_and, testBit_andNot, Nat.zero_testBit]
  cases m.testBit i <;> cases mask.testBit i <;> rfl

theorem bmHas_bmClear_self (m : Nat) (bit : Int) : bmHas (bmClear m bit) bit = false := by
  unfold bmHas bmClear
  rw [andNot_land]
  simp

theorem bsTest_bsClear_self (m : Nat) (i : Int) : bsTest (bsClear m i) i = false := by
  unfold bsTest bsClear
  split
  · rw [testBit_andNot, Nat.testBit_two_pow_self]
    simp
  · rfl

/-- Clearing a bit of the right operand cannot create a set bit: a union
that misses a mask keeps missing it. -/
theorem land_or_bmClear_zero (a b : Nat) (bit : Int) (k : Nat)
    (h : (a ||| b) &&& k = 0) : (a ||| bmClear b bit) &&& k = 0 := by
  unfold bmClear andNot
  apply Nat.eq_of_testBit_eq
  intro i
  have hi := congrArg (fun n => n.testBit i) h
  simp only [Nat.testBit_and, Nat.testBit_or, Nat.testBit_xor, Nat.zero_testBit] at hi ⊢
  cases ha : a.testBit i <;> cases hb : b.testBit i <;> cases hk : k.testBit i <;>
    cases hm : (bmMask bit).testBit i <;> simp_all

/-- Clearing a bit of the left operand cannot create a set bit. -/
theorem land_bmClear_or_zero (a b : Nat) (bit : Int) (k : Nat)
    (h : (a ||| b) &&& k = 0) : (bmClear a bit ||| b) &&& k = 0 := by
  unfold bmClear andNot
  apply Nat.eq_of_testBit_eq
  intro i
  have hi := congrArg (fun n => n.testBit i) h
  simp only [Nat.testBit_and, Nat.testBit_or, Nat.testBit_xor, Nat.zero_testBit] at hi ⊢
  cases ha : a.testBit i <;> cases hb : b.testBit i <;> cases hk : k.testBit i <;>
    cases hm : (bmMask bit).testBit i <;> simp_all

/-- Clearing a bit of a bitset cannot make an empty range query
non-empty. -/
theorem bsAnyIn_bsClear_false (m : Nat) (i s b : Int) (h : bsAnyIn m s b = false) :
    bsAnyIn (bsClear m i) s b = false := by
  unfold bsClear
  split
  · apply Bool.eq_false_iff.mpr
    intro hc
    unfold bsAnyIn at hc
    rw [List.any_eq_true] at hc
    obtain ⟨x, hx, hpx⟩ := hc
    simp only [Bool.and_eq_true, testBit_andNot] at hpx
    have h2 : bsAnyIn m s b = true := by
      unfold bsAnyIn
      rw [List.any_eq_true]
      refine ⟨x, hx, ?_⟩
      simp only [Bool.and_eq_true]
      exact ⟨hpx.1, hpx.2.1⟩
    rw [h2] at h
    exact Bool.noConfusion h
  · exact h

/-- A stopping upward step of the flag-array car: door opens with a
full timer and the new floor is cleared from both stop arrays. -/
theorem step_stop_clears_up (e : Elevator) (hst : e.state = stateMovingUp)
    (hstop : (step e).state = stateDoorOpen) :
    (step e).doorTimer = doorOpenSteps ∧
    stopTest (step e).upStops e.minFloor (step e).currentFloor = false ∧
    stopTest (step e).downStops e.minFloor (step e).currentFloor = false := by
  have hs : step e = stepMove e dirUp := by
    unfold step
    rw [hst]
  rw [hs] at hstop ⊢
  unfold stepMove at hstop ⊢
  simp only [reduceCtorEq, reduceIte] at hstop ⊢
  by_cases hc : shouldStop { e with currentFloor := e.currentFloor + 1 } dirUp = true
  · rw [if_pos hc] at hstop ⊢
    refine ⟨openDoor_doorTimer _, ?_, ?_⟩
    · rw [openDoor_upStops, openDoor_currentFloor]
      exact stopTest_stopWrite_self _ _ _
    · rw [openDoor_downStops, openDoor_currentFloor]
      exact stopTest_stopWrite_self _ _ _
  · rw [if_neg hc] at hstop
    rw [show ({ e with currentFloor := e.currentFloor + 1 } : Elevator).state = e.state from rfl,
      hst] at hstop
    cases hstop

/-- A stopping downward step of the flag-array car. -/
theorem step_stop_clears_down (e : Elevator) (hst : e.state = stateMovingDown)
    (hstop : (step e).state = stateDoorOpen) :
    (step e).doorTimer = doorOpenSteps ∧
    stopTest (step e).upStops e.minFloor (step e).currentFloor = false ∧
    stopTest (step e).downStops e.minFloor (step e).currentFloor = false := by
  have hs : step e = stepMove e dirDown := by
    unfold step
    rw [hst]
  rw [hs] at hstop ⊢
  unfold stepMove at hstop ⊢
  simp only [reduceCtorEq, reduceIte] at hstop ⊢
  by_cases hc : shouldStop { e with currentFloor := e.currentFloor - 1 } dirDown = true
  · rw [if_pos hc] at hstop ⊢
    refine ⟨openDoor_doorTimer _, ?_, ?_⟩
    · rw [openDoor_upStops, openDoor_currentFloor]
      exact stopTest_stopWrite_self _ _ _
    · rw [openDoor_downStops, openDoor_currentFloor]
      exact stopTest_stopWrite_self _ _ _
  · rw [if_neg hc] at hstop
    rw [show ({ e with currentFloor := e.currentFloor - 1 } : Elevator).state = e.state from rfl,
      hst] at hstop
    cases hstop

/-- A stopping upward step of the bitmask car: door opens with a full
timer, the up-bit at the new floor is cleared, and the down-bit at the
new floor survives exactly when it was set before the step and pending
stops remain above (the turnaround clear wipes it otherwise). -/
theorem bmStep_stop_up (e : BitmaskElevator) (hst : e.state = stateMovingUp)
    (hstop : (bmStep e).state = stateDoorOpen) :
    (bmStep e).doorTimer = doorOpenSteps ∧
    bmHas (bmStep e).upStops ((bmStep e).currentFloor - e.minFloor) = false ∧
    bmHas (bmStep e).downStops ((bmStep e).currentFloor - e.minFloor) =
      (bmHas e.downStops ((bmStep e).currentFloor - e.minFloor) &&
        bmHasStopsAbove (bmStep e)) := by
  have hs : bmStep e = bmStepMove e dirUp := by
    unfold bmStep
    rw [hst]
  rw [hs] at hstop ⊢
  unfold bmStepMove at hstop ⊢
  simp only [reduceCtorEq, reduceIte] at hstop ⊢
  by_cases hc : bmShouldStop { e with currentFloor := e.currentFloor + 1 } dirUp = true
  · rw [if_pos hc] at hstop ⊢
    unfold bmOpenDoor
    dsimp only
    split
    · rename_i hA
      have hA0 := Bool.eq_false_iff.mpr hA
      unfold bmHasStopsAbove at hA0
      dsimp only at hA0
      have hzero := not_ne_iff.mp (of_decide_eq_false hA0)
      refine ⟨rfl, bmHas_bmClear_self _ _, ?_⟩
      rw [bmHas_bmClear_self]
      unfold bmHasStopsAbove
      dsimp only
      rw [decide_eq_false (not_ne_iff.mpr
        (land_or_bmClear_zero _ _ (e.currentFloor + 1 - e.minFloor) _ hzero)), Bool.and_false]
    · rename_i hA
      refine ⟨rfl, bmHas_bmClear_self _ _, ?_⟩
      rw [not_not.mp hA, Bool.and_true]
  · rw [if_neg hc] at hstop
    rw [show ({ e with currentFloor := e.currentFloor + 1 } : BitmaskElevator).state = e.state
      from rfl, hst] at hstop
    cases hstop

/-- A stopping downward step of the bitmask car: the down-bit is
cleared and the up-bit at the new floor survives exactly when it was
set before the step and pending stops remain below. -/
theorem bmStep_stop_down (e : BitmaskElevator) (hst : e.state = stateMovingDown)
    (hstop : (bmStep e).state = stateDoorOpen) :
    (bmStep e).doorTimer = doorOpenSteps ∧
    bmHas (bmStep e).downStops ((bmStep e).currentFloor - e.minFloor) = false ∧
    bmHas (bmStep e).upStops ((bmStep e).currentFloor - e.minFloor) =
      (bmHas e.upStops ((bmStep e).currentFloor - e.minFloor) &&
        bmHasStopsBelow (bmStep e)) := by
  have hs : bmStep e = bmStepMove e dirDown := by
    unfold bmStep
    rw [hst]
  rw [hs] at hstop ⊢
  unfold bmStepMove at hstop ⊢
  simp only [reduceCtorEq, reduceIte] at hstop ⊢
  by_cases hc : bmShouldStop { e with currentFloor := e.currentFloor - 1 } dirDown = true
  · rw [if_pos hc] at hstop ⊢
    unfold bmOpenDoor
    dsimp only
    split
    · rename_i hA
      have hA0 := Bool.eq_false_iff.mpr hA
      unfold bmHasStopsBelow at hA0
      dsimp only at hA0
      have hzero := not_ne_iff.mp (of_decide_eq_false hA0)
      refine ⟨rfl, bmHas_bmClear_self _ _, ?_⟩
      rw [bmHas_bmClear_self]
      unfold bmHasStopsBelow
      dsimp only
      rw [decide_eq_false (not_ne_iff.mpr
        (land_bmClear_or_zero _ _ (e.currentFloor - 1 - e.minFloor) _ hzero)), Bool.and_false]
    · rename_i hA
      refine ⟨rfl, bmHas_bmClear_self _ _, ?_⟩
      rw [not_not.mp hA, Bool.and_true]
  · rw [if_neg hc] at hstop
    rw [show ({ e with currentFloor := e.currentFloor - 1 } : BitmaskElevator).state = e.state
      from rfl, hst] at hstop
    cases hstop

/-- A stopping upward step of the bitset car: the up-bit is cleared and
the down-bit at the new floor survives exactly when it was set before
the step and pending stops remain above. -/
theorem bsStep_stop_up (e : BitsetElevator) (hst : e.state = stateMovingUp)
    (hstop : (bsStep e).state = stateDoorOpen) :
    (bsStep e).doorTimer = doorOpenSteps ∧
    bsTest (bsStep e).upStops ((bsStep e).currentFloor - e.minFloor) = false ∧
    bsTest (bsStep e).downStops ((bsStep e).currentFloor - e.minFloor) =
      (bsTest e.downStops ((bsStep e).currentFloor - e.minFloor) &&
        bsHasStopsAbove (bsStep e)) := by
  have hs : bsStep e = bsStepMove e dirUp := by
    unfold bsStep
    rw [hst]
  rw [hs] at hstop ⊢
  unfold bsStepMove at hstop ⊢
  simp only [reduceCtorEq, reduceIte] at hstop ⊢
  by_cases hc : bsShouldStop { e with currentFloor := e.currentFloor + 1 } dirUp = true
  · rw [if_pos hc] at hstop ⊢
    unfold bsOpenDoor
    dsimp only
    split
    · rename_i hA
      have hA0 := Bool.eq_false_iff.mpr hA
      unfold bsHasStopsAbove at hA0
      dsimp only at hA0
      rw [Bool.or_eq_false_iff] at hA0
      refine ⟨rfl, bsTest_bsClear_self _ _, ?_⟩
      rw [bsTest_bsClear_self]
      unfold bsHasStopsAbove
      dsimp only
      rw [hA0.1, bsAnyIn_bsClear_false _ (e.currentFloor + 1 - e.minFloor) _ _ hA0.2,
        Bool.or_self, Bool.and_false]
    · rename_i hA
      refine ⟨rfl, bsTest_bsClear_self _ _, ?_⟩
      rw [not_not.mp hA, Bool.and_true]
  · rw [if_neg hc] at hstop
    rw [show ({ e with currentFloor := e.currentFloor + 1 } : BitsetElevator).state = e.state
      from rfl, hst] at hstop
    cases hstop

/-- A stopping downward step of the bitset car: the down-bit is cleared
and the up-bit at the new floor survives exactly when it was set before
the step and pending stops remain below. -/
theorem bsStep_stop_down (e : BitsetElevator) (hst : e.state = stateMovingDown)
    (hstop : (bsStep e).state = stateDoorOpen) :
    (bsStep e).doorTimer = doorOpenSteps ∧
    bsTest (bsStep e).downStops ((bsStep e).currentFloor - e.minFloor) = false ∧
    bsTest (bsStep e).upStops ((bsStep e).currentFloor - e.minFloor) =
      (bsTest e.upStops ((bsStep e).currentFloor - e.minFloor) &&
        bsHasStopsBelow (bsStep e)) := by
  have hs : bsStep e = bsStepMove e dirDown := by
    unfold bsStep
    rw [hst]
  rw [hs] at hstop ⊢
  unfold bsStepMove at hstop ⊢
  simp only [reduceCtorEq, reduceIte] at hstop ⊢
  by_cases hc : bsShouldStop { e with currentFloor := e.currentFloor - 1 } dirDown = true
  · rw [if_pos hc] at hstop ⊢
    unfold bsOpenDoor
    dsimp only
    split
    · rename_i hA
      have hA0 := Bool.eq_false_iff.mpr hA
      unfold bsHasStopsBelow at hA0
      dsimp only at hA0
      refine ⟨rfl, bsTest_bsClear_self _ _, ?_⟩
      rw [bsTest_bsClear_self]
      unfold bsHasStopsBelow
      dsimp only
      by_cases hcur : e.currentFloor - 1 - e.minFloor ≤ 0
      · rw [if_pos hcur, Bool.and_false]
      · rw [if_neg hcur] at hA0
        rw [Bool.or_eq_false_iff] at hA0
        rw [if_neg hcur, bsAnyIn_bsClear_false _ (e.currentFloor - 1 - e.minFloor) _ _ hA0.1,
          hA0.2, Bool.or_self, Bool.and_false]
    · rename_i hA
      refine ⟨rfl, bsTest_bsClear_self _ _, ?_⟩
      rw [not_not.mp hA, Bool.and_true]
  · rw [if_neg hc] at hstop
    rw [show ({ e with currentFloor := e.currentFloor - 1 } : BitsetElevator).state = e.state
      from rfl, hst] at hstop
    cases hstop

/-- C2 amended: whenever a `Step` in a Moving state stops at the
current floor, the car enters DoorOpen with the timer set to exactly
2 ticks and the current floor is cleared from every stop-set that
caused the stop — but not only from those: the flag-array variant
always clears both sets, while in the bitmask and bitset variants the
opposite set's mark at the stop floor survives the stop exactly when it
was set before the step and stops remain pending further in the travel
direction (when the opposite set did not cause the stop). -/
theorem claim2_amended :
    (∀ e : Elevator, e.state = stateMovingUp ∨ e.state = stateMovingDown →
      (step e).state = stateDoorOpen →
      (step e).doorTimer = doorOpenSteps ∧
      stopTest (step e).upStops e.minFloor (step e).currentFloor = false ∧
      stopTest (step e).downStops e.minFloor (step e).currentFloor = false) ∧
    (∀ e : BitmaskElevator, e.state = stateMovingUp → (bmStep e).state = stateDoorOpen →
      (bmStep e).doorTimer = doorOpenSteps ∧
      bmHas (bmStep e).upStops ((bmStep e).currentFloor - e.minFloor) = false ∧
      bmHas (bmStep e).downStops ((bmStep e).currentFloor - e.minFloor) =
        (bmHas e.downStops ((bmStep e).currentFloor - e.minFloor) &&
          bmHasStopsAbove (bmStep e))) ∧
    (∀ e : BitmaskElevator, e.state = stateMovingDown → (bmStep e).state = stateDoorOpen →
      (bmStep e).doorTimer = doorOpenSteps ∧
      bmHas (bmStep e).downStops ((bmStep e).currentFloor - e.minFloor) = false ∧
      bmHas (bmStep e).upStops ((bmStep e).currentFloor - e.minFloor) =
        (bmHas e.upStops ((bmStep e).currentFloor - e.minFloor) &&
          bmHasStopsBelow (bmStep e))) ∧
    (∀ e : BitsetElevator, e.state = stateMovingUp → (bsStep e).state = stateDoorOpen →
      (bsStep e).doorTimer = doorOpenSteps ∧
      bsTest (bsStep e).upStops ((bsStep e).currentFloor - e.minFloor) = false ∧
      bsTest (bsStep e).downStops ((bsStep e).currentFloor - e.minFloor) =
        (bsTest e.downStops ((bsStep e).currentFloor - e.minFloor) &&
          bsHasStopsAbove (bsStep e))) ∧
    (∀ e : BitsetElevator, e.state = stateMovingDown → (bsStep e).state = stateDoorOpen →
      (bsStep e).doorTimer = doorOpenSteps ∧
      bsTest (bsStep e).downStops ((bsStep e).currentFloor - e.minFloor) = false ∧
      bsTest (bsStep e).upStops ((bsStep e).currentFloor - e.minFloor) =
        (bsTest e.upStops ((bsStep e).currentFloor - e.minFloor) &&
          bsHasStopsBelow (bsStep e))) :=
  ⟨fun e h hs => h.elim (fun h1 => step_stop_clears_up e h1 hs)
      (fun h1 => step_stop_clears_down e h1 hs),
    bmStep_stop_up, bmStep_stop_down, bsStep_stop_up, bsStep_stop_down⟩

/-- Flag-array car moving up at floor 2 with an up-stop at floor 3. -/
def c2WitFlagUp : Elevator :=
  ⟨1, 2, stateMovingUp, dirUp, 1, 5, [false, false, true, false, false],
    [false, false, false, false, false], 3, 3, 0⟩

/-- Flag-array car moving down at floor 2 with a down-stop at floor 1. -/
def c2WitFlagDown : Elevator :=
  ⟨1, 2, stateMovingDown, dirDown, 1, 5, [false, false, false, false, false],
    [true, false, false, false, false], 1, 1, 0⟩

/-- Bitmask car moving up at floor 2 with up-stops at floors 3 and 5
(bits 2 and 4) and a down-stop at floor 3 (bit 2): its stop at floor 3
retains the down mark, since floor 5 is still pending above. -/
def c2WitBmUp : BitmaskElevator :=
  ⟨1, 2, stateMovingUp, dirUp, 1, 5, 20, 4, 0⟩

/-- Bitmask car moving down at floor 4 with down-stops at floors 1 and
3 (bits 0 and 2) and an up-stop at floor 3 (bit 2): its stop at floor 3
retains the up mark, since floor 1 is still pending below. -/
def c2WitBmDown : BitmaskElevator :=
  ⟨1, 4, stateMovingDown, dirDown, 1, 5, 4, 5, 0⟩

/-- Bitset car moving up at floor 2 with up-stops at floors 3 and 5 and
a down-stop at floor 3. -/
def c2WitBsUp : BitsetElevator :=
  ⟨1, 2, stateMovingUp, dirUp, 1, 5, 20, 4, 0⟩

/-- Bitset car moving down at floor 4 with down-stops at floors 1 and 3
and an up-stop at floor 3. -/
def c2WitBsDown : BitsetElevator :=
  ⟨1, 4, stateMovingDown, dirDown, 1, 5, 4, 5, 0⟩

/-- Witness for C2 amended: each part applied to a concrete stopping
step; the bitmask/bitset cars have an opposite-set mark at the stop
floor and pending stops further ahead, so the equations record the mark
actually being retained. -/
theorem claim2_witness :
    ((step c2WitFlagUp).doorTimer = doorOpenSteps ∧
      stopTest (step c2WitFlagUp).upStops c2WitFlagUp.minFloor
        (step c2WitFlagUp).currentFloor = false ∧
      stopTest (step c2WitFlagUp).downStops c2WitFlagUp.minFloor
        (step c2WitFlagUp).currentFloor = false) ∧
    ((step c2WitFlagDown).doorTimer = doorOpenSteps ∧
      stopTest (step c2WitFlagDown).upStops c2WitFlagDown.minFloor
        (step c2WitFlagDown).currentFloor = false ∧
      stopTest (step c2WitFlagDown).downStops c2WitFlagDown.minFloor
        (step c2WitFlagDown).currentFloor = false) ∧
    ((bmStep c2WitBmUp).doorTimer = doorOpenSteps ∧
      bmHas (bmStep c2WitBmUp).upStops ((bmStep c2WitBmUp).currentFloor - c2WitBmUp.minFloor) =
        false ∧
      bmHas (bmStep c2WitBmUp).downStops
          ((bmStep c2WitBmUp).currentFloor - c2WitBmUp.minFloor) =
        (bmHas c2WitBmUp.downStops ((bmStep c2WitBmUp).currentFloor - c2WitBmUp.minFloor) &&
          bmHasStopsAbove (bmStep c2WitBmUp))) ∧
    ((bmStep c2WitBmDown).doorTimer = doorOpenSteps ∧
      bmHas (bmStep c2WitBmDown).downStops
        ((bmStep c2WitBmDown).currentFloor - c2WitBmDown.minFloor) = false ∧
      bmHas (bmStep c2WitBmDown).upStops
          ((bmStep c2WitBmDown).currentFloor - c2WitBmDown.minFloor) =
        (bmHas c2WitBmDown.upStops ((bmStep c2WitBmDown).currentFloor - c2WitBmDown.minFloor) &&
          bmHasStopsBelow (bmStep c2WitBmDown))) ∧
    ((bsStep c2WitBsUp).doorTimer = doorOpenSteps ∧
      bsTest (bsStep c2WitBsUp).upStops ((bsStep c2WitBsUp).currentFloor - c2WitBsUp.minFloor) =
        false ∧
      bsTest (bsStep c2WitBsUp).downStops
          ((bsStep c2WitBsUp).currentFloor - c2WitBsUp.minFloor) =
        (bsTest c2WitBsUp.downStops ((bsStep c2WitBsUp).currentFloor - c2WitBsUp.minFloor) &&
          bsHasStopsAbove (bsStep c2WitBsUp))) ∧
    ((bsStep c2WitBsDown).doorTimer = doorOpenSteps ∧
      bsTest (bsStep c2WitBsDown).downStops
        ((bsStep c2WitBsDown).currentFloor - c2WitBsDown.minFloor) = false ∧
      bsTest (bsStep c2WitBsDown).upStops
          ((bsStep c2WitBsDown).currentFloor - c2WitBsDown.minFloor) =
        (bsTest c2WitBsDown.upStops ((bsStep c2WitBsDown).currentFloor - c2WitBsDown.minFloor) &&
          bsHasStopsBelow (bsStep c2WitBsDown))) :=
  ⟨claim2_amended.1 c2WitFlagUp (Or.inl (by decide)) (by decide),
    claim2_amended.1 c2WitFlagDown (Or.inr (by decide)) (by decide),
    claim2_amended.2.1 c2WitBmUp (by decide) (by decide),
    claim2_amended.2.2.1 c2WitBmDown (by decide) (by decide),
    claim2_amended.2.2.2.1 c2WitBsUp (by decide) (by decide),
    claim2_amended.2.2.2.2 c2WitBsDown (by decide) (by decide)⟩

/-- Witness for C5 amended: a cab call to floor 4 on a fresh car on
floors 1..5 marks floor 4 in the up-set. -/
theorem claim5_witness :
    stopTest (addRequest (newElevator 1 1 5) ⟨4, dirIdle, cabCall⟩).upStops 1 4 = true ∨
    stopTest (addRequest (newElevator 1 1 5) ⟨4, dirIdle, cabCall⟩).downStops 1 4 = true ∨
    ((addRequest (newElevator 1 1 5) ⟨4, dirIdle, cabCall⟩).state = stateDoorOpen ∧
      (addRequest (newElevator 1 1 5) ⟨4, dirIdle, cabCall⟩).doorTimer = doorOpenSteps) :=
  claim5_amended (newElevator 1 1 5) ⟨4, dirIdle, cabCall⟩ (by decide) (by decide)
    (by decide) (by decide) (by decide)

/-! ### Claim C7: the dispatcher cost function, case by case -/

/-- C7: `Dispatcher.cost` matches the specified piecewise formula with
`distance = |CurrentFloor - r.Floor|` and `pending = PendingCount()`:
idle cars pay `distance + pending/2`; moving cars with the request
ahead pay the same when the hall direction matches (or the request is a
cab call), plus `span/2` when it is opposite; cars moving away pay the
detour to their directional boundary and back, plus `pending/2`. -/
theorem claim7_cost_formula (d : Dispatcher) (e : Elevator) (r : Request) :
    (e.state = stateIdle →
      cost d e r = (|e.currentFloor - r.floor| : ℚ) + (1 / 2) * (pendingCount e : ℚ)) ∧
    ((e.state = stateMovingUp ∧ e.direction = dirUp ∧ r.floor ≥ e.currentFloor ∧
        (r.rtype = cabCall ∨ r.direction = dirUp)) ∨
      (e.state = stateMovingDown ∧ e.direction = dirDown ∧ r.floor ≤ e.currentFloor ∧
        (r.rtype = cabCall ∨ r.direction = dirDown)) →
      cost d e r = (|e.currentFloor - r.floor| : ℚ) + (1 / 2) * (pendingCount e : ℚ)) ∧
    ((e.state = stateMovingUp ∧ e.direction = dirUp ∧ r.floor ≥ e.currentFloor ∧
        r.rtype = hallCall ∧ r.direction ≠ dirUp) ∨
      (e.state = stateMovingDown ∧ e.direction = dirDown ∧ r.floor ≤ e.currentFloor ∧
        r.rtype = hallCall ∧ r.direction ≠ dirDown) →
      cost d e r = (|e.currentFloor - r.floor| : ℚ) + ((d.maxFloor - d.minFloor : Int) : ℚ) / 2 +
        (1 / 2) * (pendingCount e : ℚ)) ∧
    (e.state = stateMovingUp ∧ e.direction = dirUp ∧ r.floor < e.currentFloor →
      cost d e r = ((d.maxFloor - e.currentFloor : Int) : ℚ) + ((d.maxFloor - r.floor : Int) : ℚ) +
        (1 / 2) * (pendingCount e : ℚ)) ∧
    (e.state = stateMovingDown ∧ e.direction = dirDown ∧ r.floor > e.currentFloor →
      cost d e r = ((e.currentFloor - d.minFloor : Int) : ℚ) + ((r.floor - d.minFloor : Int) : ℚ) +
        (1 / 2) * (pendingCount e : ℚ)) := by
  refine ⟨fun h => ?_, fun h => ?_, fun h => ?_, fun h => ?_, fun h => ?_⟩
  · unfold cost
    rw [if_pos (Or.inl h)]
    push_cast
    ring
  · rcases h with ⟨h1, h2, h3, h4⟩ | ⟨h1, h2, h3, h4⟩
    · unfold cost
      rw [if_neg (by simp [h1, h2]), if_pos (Or.inl ⟨h2, h3⟩), if_pos (by rw [h2]; exact h4)]
      push_cast
      ring
    · unfold cost
      rw [if_neg (by simp [h1, h2]), if_pos (Or.inr ⟨h2, h3⟩), if_pos (by rw [h2]; exact h4)]
      push_cast
      ring
  · rcases h with ⟨h1, h2, h3, h4, h5⟩ | ⟨h1, h2, h3, h4, h5⟩
    · unfold cost
      rw [if_neg (by simp [h1, h2]), if_pos (Or.inl ⟨h2, h3⟩), if_neg (by
        rw [h2, h4]
        rintro (hc | hc)
        · cases hc
        · exact h5 hc)]
      push_cast
      ring
    · unfold cost
      rw [if_neg (by simp [h1, h2]), if_pos (Or.inr ⟨h2, h3⟩), if_neg (by
        rw [h2, h4]
        rintro (hc | hc)
        · cases hc
        · exact h5 hc)]
      push_cast
      ring
  · obtain ⟨h1, h2, h3⟩ := h
    unfold cost
    rw [if_neg (by simp [h1, h2]), if_neg (by
      rw [h2]
      rintro (⟨_, hc⟩ | ⟨hc, _⟩)
      · omega
      · cases hc)]
    dsimp only
    rw [if_pos h2]
    push_cast
    ring
  · obtain ⟨h1, h2, h3⟩ := h
    unfold cost
    rw [if_neg (by simp [h1, h2]), if_neg (by
      rw [h2]
      rintro (⟨hc, _⟩ | ⟨_, hc⟩)
      · cases hc
      · omega)]
    dsimp only
    rw [if_neg (by rw [h2]; exact fun hc => Direction.noConfusion hc)]
    push_cast
    ring

/-- Witness for C7: each cost branch evaluated on a concrete car of a
two-car dispatcher on floors 1..5. -/
theorem claim7_witness :
    cost (newDispatcher 2 1 5) (newElevator 1 1 5) ⟨3, dirUp, hallCall⟩ =
      (|(1 : Int) - 3| : ℚ) + (1 / 2) * ((pendingCount (newElevator 1 1 5) : ℚ)) ∧
    cost (newDispatcher 2 1 5) ⟨1, 2, stateMovingUp, dirUp, 1, 5,
        [false, false, true, false, false], [false, false, false, false, false], 3, 3, 0⟩
      ⟨4, dirUp, hallCall⟩ =
      (|(2 : Int) - 4| : ℚ) +
        (1 / 2) * ((pendingCount ⟨1, 2, stateMovingUp, dirUp, 1, 5,
          [false, false, true, false, false], [false, false, false, false, false], 3, 3, 0⟩ : ℚ)) ∧
    cost (newDispatcher 2 1 5) ⟨1, 2, stateMovingUp, dirUp, 1, 5,
        [false, false, true, false, false], [false, false, false, false, false], 3, 3, 0⟩
      ⟨4, dirDown, hallCall⟩ =
      (|(2 : Int) - 4| : ℚ) + (((5 : Int) - 1 : Int) : ℚ) / 2 +
        (1 / 2) * ((pendingCount ⟨1, 2, stateMovingUp, dirUp, 1, 5,
          [false, false, true, false, false], [false, false, false, false, false], 3, 3, 0⟩ : ℚ)) ∧
    cost (newDispatcher 2 1 5) ⟨1, 3, stateMovingUp, dirUp, 1, 5,
        [false, false, false, true, false], [false, false, false, false, false], 4, 4, 0⟩
      ⟨2, dirUp, hallCall⟩ =
      (((5 : Int) - 3 : Int) : ℚ) + (((5 : Int) - 2 : Int) : ℚ) +
        (1 / 2) * ((pendingCount ⟨1, 3, stateMovingUp, dirUp, 1, 5,
          [false, false, false, true, false], [false, false, false, false, false], 4, 4, 0⟩ : ℚ)) ∧
    cost (newDispatcher 2 1 5) ⟨1, 3, stateMovingDown, dirDown, 1, 5,
        [false, false, false, false, false], [true, false, false, false, false], 1, 1, 0⟩
      ⟨4, dirUp, hallCall⟩ =
      (((3 : Int) - 1 : Int) : ℚ) + (((4 : Int) - 1 : Int) : ℚ) +
        (1 / 2) * ((pendingCount ⟨1, 3, stateMovingDown, dirDown, 1, 5,
          [false, false, false, false, false], [true, false, false, false, false], 1, 1, 0⟩ : ℚ)) :=
  ⟨(claim7_cost_formula (newDispatcher 2 1 5) (newElevator 1 1 5) ⟨3, dirUp, hallCall⟩).1
      (by decide),
    (claim7_cost_formula (newDispatcher 2 1 5) ⟨1, 2, stateMovingUp, dirUp, 1, 5,
        [false, false, true, false, false], [false, false, false, false, false], 3, 3, 0⟩
        ⟨4, dirUp, hallCall⟩).2.1
      (Or.inl ⟨by decide, by decide, by decide, Or.inr (by decide)⟩),
    (claim7_cost_formula (newDispatcher 2 1 5) ⟨1, 2, stateMovingUp, dirUp, 1, 5,
        [false, false, true, false, false], [false, false, false, false, false], 3, 3, 0⟩
        ⟨4, dirDown, hallCall⟩).2.2.1
      (Or.inl ⟨by decide, by decide, by decide, by decide, by decide⟩),
    (claim7_cost_formula (newDispatcher 2 1 5) ⟨1, 3, stateMovingUp, dirUp, 1, 5,
        [false, false, false, true, false], [false, false, false, false, false], 4, 4, 0⟩
        ⟨2, dirUp, hallCall⟩).2.2.2.1
      ⟨by decide, by decide, by decide⟩,
    (claim7_cost_formula (newDispatcher 2 1 5) ⟨1, 3, stateMovingDown, dirDown, 1, 5,
        [false, false, false, false, false], [true, false, false, false, false], 1, 1, 0⟩
        ⟨4, dirUp, hallCall⟩).2.2.2.2
      ⟨by decide, by decide, by decide⟩⟩

/-! ### Claims C8 and C10: dispatch selection and its frame -/

/-- Specification of the `Dispatch` selection loop, generalised over the
accumulator: starting from candidate `(bi, bc)`, the loop returns the
first index whose cost is strictly below every earlier candidate, and
its cost bounds every scanned cost from below. -/
theorem bestElevator_some_spec (d : Dispatcher) (r : Request) (dflt : Elevator)
    (es : List Elevator) : ∀ (i0 bi : Nat) (bc : ℚ),
    ∃ j c, bestElevator d r es i0 (some (bi, bc)) = some (j, c) ∧
      c ≤ bc ∧
      (∀ k, k < es.length → c ≤ cost d (es.getD k dflt) r) ∧
      ((j = bi ∧ c = bc) ∨
        (i0 ≤ j ∧ j - i0 < es.length ∧ c = cost d (es.getD (j - i0) dflt) r ∧ c < bc ∧
          ∀ k, k < j - i0 → c < cost d (es.getD k dflt) r)) := by
  induction es with
  | nil =>
      intro i0 bi bc
      exact ⟨bi, bc, rfl, le_refl _, fun k hk => absurd hk (Nat.not_lt_zero k),
        Or.inl ⟨rfl, rfl⟩⟩
  | cons e es ih =>
      intro i0 bi bc
      by_cases hce : cost d e r < bc
      · obtain ⟨j, c, heq, hle, hlb, hid⟩ := ih (i0 + 1) i0 (cost d e r)
        refine ⟨j, c, ?_, le_of_lt (lt_of_le_of_lt hle hce), ?_, ?_⟩
        · unfold bestElevator
          dsimp only
          rw [if_pos hce]
          exact heq
        · intro k hk
          cases k with
          | zero => simpa using hle
          | succ k =>
              rw [List.getD_cons_succ]
              exact hlb k (by simpa using hk)
        · rcases hid with ⟨hj, hc⟩ | ⟨h1, h2, h3, h4, h5⟩
          · refine Or.inr ⟨le_of_eq hj.symm, ?_, ?_, ?_, ?_⟩
            · rw [hj]
              simp
            · rw [hj, Nat.sub_self, List.getD_cons_zero]
              exact hc
            · rw [hc]
              exact hce
            · intro k hk
              rw [hj, Nat.sub_self] at hk
              exact absurd hk (Nat.not_lt_zero k)
          · have hji : j - i0 = (j - (i0 + 1)) + 1 := by omega
            refine Or.inr ⟨by omega, by rw [List.length_cons]; omega, ?_, lt_trans h4 hce, ?_⟩
            · rw [hji, List.getD_cons_succ]
              exact h3
            · intro k hk
              cases k with
              | zero => simpa using h4
              | succ k =>
                  rw [List.getD_cons_succ]
                  exact h5 k (by omega)
      · obtain ⟨j, c, heq, hle, hlb, hid⟩ := ih (i0 + 1) bi bc
        refine ⟨j, c, ?_, hle, ?_, ?_⟩
        · unfold bestElevator
          dsimp only
          rw [if_neg hce]
          exact heq
        · intro k hk
          cases k with
          | zero =>
              rw [List.getD_cons_zero]
              exact le_trans hle (not_lt.mp hce)
          | succ k =>
              rw [List.getD_cons_succ]
              exact hlb k (by simpa using hk)
        · rcases hid with ⟨hj, hc⟩ | ⟨h1, h2, h3, h4, h5⟩
          · exact Or.inl ⟨hj, hc⟩
          · have hji : j - i0 = (j - (i0 + 1)) + 1 := by omega
            refine Or.inr ⟨by omega, by rw [List.length_cons]; omega, ?_, h4, ?_⟩
            · rw [hji, List.getD_cons_succ]
              exact h3
            · intro k hk
              cases k with
              | zero =>
                  rw [List.getD_cons_zero]
                  exact lt_of_lt_of_le h4 (not_lt.mp hce)
              | succ k =>
                  rw [List.getD_cons_succ]
                  exact h5 k (by omega)

theorem getD_mapIdx {α : Type} (l : List α) (f : Nat → α → α) (n : Nat) (dflt : α)
    (h : n < l.length) :
    (l.mapIdx f).getD n dflt = f n (l.getD n dflt) := by
  have h2 : n < (l.mapIdx f).length := by
    rw [List.length_mapIdx]
    exact h
  rw [List.getD_eq_getElem?_getD, List.getElem?_eq_getElem h2, List.getD_eq_getElem?_getD,
    List.getElem?_eq_getElem h]
  simp only [Option.getD_some]
  have := List.get_mapIdx l f n h
  simp only [List.get_eq_getElem] at this
  exact this

/-- Full characterisation of `Dispatcher.Dispatch` on a non-empty car
list: it returns the strictly-first minimum-cost index, routes the
request to that car by `AddRequest`, and leaves every other car and the
dispatcher's own fields untouched. -/
theorem dispatch_spec (d : Dispatcher) (r : Request) (dflt : Elevator)
    (h : d.elevators ≠ []) :
    ∃ i d2, dispatch d r = some (i, d2) ∧
      i < d.elevators.length ∧
      (∀ k, k < d.elevators.length →
        cost d (d.elevators.getD i dflt) r ≤ cost d (d.elevators.getD k dflt) r) ∧
      (∀ k, k < i → cost d (d.elevators.getD i dflt) r < cost d (d.elevators.getD k dflt) r) ∧
      d2.minFloor = d.minFloor ∧ d2.maxFloor = d.maxFloor ∧
      d2.elevators.length = d.elevators.length ∧
      (∀ k, k ≠ i → d2.elevators.getD k dflt = d.elevators.getD k dflt) ∧
      d2.elevators.getD i dflt = addRequest (d.elevators.getD i dflt) r := by
  obtain ⟨e, es, hL⟩ := List.exists_cons_of_ne_nil h
  obtain ⟨j, c, heq, hle, hlb, hid⟩ := bestElevator_some_spec d r dflt es 1 0 (cost d e r)
  have hbe : bestElevator d r d.elevators 0 none = some (j, c) := by
    rw [hL]
    unfold bestElevator
    dsimp only
    exact heq
  have hdisp : dispatch d r = some (j,
      { d with elevators := d.elevators.mapIdx fun k x => if k = j then addRequest x r else x }) := by
    unfold dispatch
    rw [hbe]
  have hjlen : j < d.elevators.length := by
    rw [hL, List.length_cons]
    rcases hid with ⟨hj, _⟩ | ⟨h1, h2, _, _, _⟩
    · omega
    · omega
  have hcj : c = cost d (d.elevators.getD j dflt) r := by
    rw [hL]
    rcases hid with ⟨hj, hc⟩ | ⟨h1, h2, h3, _, _⟩
    · rw [hj, List.getD_cons_zero]
      exact hc
    · have hji : j = (j - 1) + 1 := by omega
      rw [hji, List.getD_cons_succ]
      simpa using h3
  have hall : ∀ k, k < d.elevators.length → c ≤ cost d (d.elevators.getD k dflt) r := by
    intro k hk
    rw [hL]
    cases k with
    | zero =>
        rw [List.getD_cons_zero]
        exact hle
    | succ k =>
        rw [List.getD_cons_succ]
        refine hlb k ?_
        rw [hL, List.length_cons] at hk
        omega
  have hstrict : ∀ k, k < j → c < cost d (d.elevators.getD k dflt) r := by
    intro k hk
    rcases hid with ⟨hj, _⟩ | ⟨h1, h2, h3, h4, h5⟩
    · rw [hj] at hk
      exact absurd hk (Nat.not_lt_zero k)
    · rw [hL]
      cases k with
      | zero =>
          rw [List.getD_cons_zero]
          exact h4
      | succ k =>
          rw [List.getD_cons_succ]
          exact h5 k (by omega)
  refine ⟨j, _, hdisp, hjlen, ?_, ?_, rfl, rfl, ?_, ?_, ?_⟩
  · intro k hk
    rw [← hcj]
    exact hall k hk
  · intro k hk
    rw [← hcj]
    exact hstrict k hk
  · dsimp only
    rw [List.length_mapIdx]
  · intro k hk
    dsimp only
    by_cases hklen : k < d.elevators.length
    · rw [getD_mapIdx _ _ _ _ hklen, if_neg hk]
    · rw [List.getD_eq_default, List.getD_eq_default]
      · omega
      · rw [List.length_mapIdx]
        omega
  · dsimp only
    rw [getD_mapIdx _ _ _ _ hjlen, if_pos rfl]

/-- C8: on a dispatcher with at least one car, `Dispatch(r)` selects the
car of minimal cost for `r` — ties broken toward the lowest index, by
the loop's strict-less-than comparison — and adds `r` to exactly that
car via `AddRequest`. -/
theorem claim8_dispatch_argmin (d : Dispatcher) (r : Request) (h : d.elevators ≠ []) :
    ∃ i d2, dispatch d r = some (i, d2) ∧
      i < d.elevators.length ∧
      (∀ k, k < d.elevators.length →
        cost d (d.elevators.getD i (newElevator 0 0 0)) r ≤
          cost d (d.elevators.getD k (newElevator 0 0 0)) r) ∧
      (∀ k, k < i →
        cost d (d.elevators.getD i (newElevator 0 0 0)) r <
          cost d (d.elevators.getD k (newElevator 0 0 0)) r) ∧
      d2.elevators.getD i (newElevator 0 0 0) =
        addRequest (d.elevators.getD i (newElevator 0 0 0)) r := by
  obtain ⟨i, d2, h1, h2, h3, h4, _, _, _, _, h9⟩ := dispatch_spec d r (newElevator 0 0 0) h
  exact ⟨i, d2, h1, h2, h3, h4, h9⟩

/-- Witness for C8: dispatching an up hall call at floor 3 to a fresh
two-car dispatcher (both cars idle at floor 1, equal costs) selects a
minimal-cost car of lowest index. -/
theorem claim8_witness :
    ∃ i d2, dispatch (newDispatcher 2 1 5) ⟨3, dirUp, hallCall⟩ = some (i, d2) ∧
      i < (newDispatcher 2 1 5).elevators.length ∧
      (∀ k, k < (newDispatcher 2 1 5).elevators.length →
        cost (newDispatcher 2 1 5)
            ((newDispatcher 2 1 5).elevators.getD i (newElevator 0 0 0)) ⟨3, dirUp, hallCall⟩ ≤
          cost (newDispatcher 2 1 5)
            ((newDispatcher 2 1 5).elevators.getD k (newElevator 0 0 0)) ⟨3, dirUp, hallCall⟩) ∧
      (∀ k, k < i →
        cost (newDispatcher 2 1 5)
            ((newDispatcher 2 1 5).elevators.getD i (newElevator 0 0 0)) ⟨3, dirUp, hallCall⟩ <
          cost (newDispatcher 2 1 5)
            ((newDispatcher 2 1 5).elevators.getD k (newElevator 0 0 0)) ⟨3, dirUp, hallCall⟩) ∧
      d2.elevators.getD i (newElevator 0 0 0) =
        addRequest ((newDispatcher 2 1 5).elevators.getD i (newElevator 0 0 0))
          ⟨3, dirUp, hallCall⟩ :=
  claim8_dispatch_argmin (newDispatcher 2 1 5) ⟨3, dirUp, hallCall⟩ (by decide)

/-- C10: `Dispatch` mutates only the car it returns — every other car,
and the dispatcher's own fields (`Elevators` length, `MinFloor`,
`MaxFloor`), are exactly as before the call. -/
theorem claim10_dispatch_frame (d : Dispatcher) (r : Request) (h : d.elevators ≠ []) :
    ∃ i d2, dispatch d r = some (i, d2) ∧
      d2.minFloor = d.minFloor ∧ d2.maxFloor = d.maxFloor ∧
      d2.elevators.length = d.elevators.length ∧
      (∀ k, k ≠ i → d2.elevators.getD k (newElevator 0 0 0) =
        d.elevators.getD k (newElevator 0 0 0)) ∧
      d2.elevators.getD i (newElevator 0 0 0) =
        addRequest (d.elevators.getD i (newElevator 0 0 0)) r := by
  obtain ⟨i, d2, h1, _, _, _, h5, h6, h7, h8, h9⟩ := dispatch_spec d r (newElevator 0 0 0) h
  exact ⟨i, d2, h1, h5, h6, h7, h8, h9⟩

/-- Witness for C10 at the same concrete dispatcher and request. -/
theorem claim10_witness :
    ∃ i d2, dispatch (newDispatcher 2 1 5) ⟨2, dirDown, hallCall⟩ = some (i, d2) ∧
      d2.minFloor = (newDispatcher 2 1 5).minFloor ∧
      d2.maxFloor = (newDispatcher 2 1 5).maxFloor ∧
      d2.elevators.length = (newDispatcher 2 1 5).elevators.length ∧
      (∀ k, k ≠ i → d2.elevators.getD k (newElevator 0 0 0) =
        (newDispatcher 2 1 5).elevators.getD k (newElevator 0 0 0)) ∧
      d2.elevators.getD i (newElevator 0 0 0) =
        addRequest ((newDispatcher 2 1 5).elevators.getD i (newElevator 0 0 0))
          ⟨2, dirDown, hallCall⟩ :=
  claim10_dispatch_frame (newDispatcher 2 1 5) ⟨2, dirDown, hallCall⟩ (by decide)

/-! ### Claims C3, C4, C6: reachable-state invariants of the flag-array car

The cached bounds `minRequest`/`maxRequest` may drift from the true
extrema of the marked floors (a cab call to the car's own floor while
it is moving updates the bounds without marking anything), but only in
a controlled way: at most one bound is "phantom" (not itself marked), a
phantom low bound occurs only while sweeping up and a phantom high
bound only while sweeping down, and in both cases the opposite bound is
exact. `Inv` captures this; it is preserved by `AddRequest` and `Step`
and yields the floor-bounds invariant (C3), exactness of
`HasPendingRequests` (C4), and the stop-decision characterisation
(C6). -/

/-- Floor `f` is marked in one of the car's two stop arrays. -/
def marked (e : Elevator) (f : Int) : Prop :=
  stopTest e.upStops e.minFloor f = true ∨ stopTest e.downStops e.minFloor f = true

/-- The inductive invariant of reachable flag-array cars. -/
structure Inv (e : Elevator) : Prop where
  lenUp : e.upStops.length = (e.maxFloor - e.minFloor + 1).toNat
  lenDown : e.downStops.length = (e.maxFloor - e.minFloor + 1).toNat
  floorLo : e.minFloor ≤ e.currentFloor
  floorHi : e.currentFloor ≤ e.maxFloor
  boundsLo : ∀ f, marked e f → e.minRequest ≤ f
  boundsHi : ∀ f, marked e f → f ≤ e.maxRequest
  emptyMin : (∀ f, ¬marked e f) → e.minRequest = e.maxFloor + 1
  emptyMax : (∀ f, ¬marked e f) → e.maxRequest = e.minFloor - 1
  movingUp : e.state = stateMovingUp →
    e.direction = dirUp ∧ marked e e.maxRequest ∧ e.maxRequest > e.currentFloor
  movingDown : e.state = stateMovingDown →
    e.direction = dirDown ∧ marked e e.minRequest ∧ e.minRequest < e.currentFloor
  phantomMin : (∃ f, marked e f) → ¬marked e e.minRequest →
    marked e e.maxRequest ∧ e.minFloor ≤ e.minRequest ∧
      (e.state = stateMovingUp ∨
        (e.state = stateDoorOpen ∧ e.direction = dirUp ∧ e.maxRequest > e.currentFloor))
  phantomMax : (∃ f, marked e f) → ¬marked e e.maxRequest →
    marked e e.minRequest ∧ e.maxRequest ≤ e.maxFloor ∧
      (e.state = stateMovingDown ∨
        (e.state = stateDoorOpen ∧ e.direction = dirDown ∧ e.minRequest < e.currentFloor))
  idleDir : e.state = stateIdle → e.direction = dirIdle

theorem stopTest_true_bounds (l : List Bool) (minF f : Int)
    (h : stopTest l minF f = true) : minF ≤ f ∧ (f - minF).toNat < l.length := by
  unfold stopTest at h
  split at h
  · cases h
  · rename_i hf
    refine ⟨le_of_not_lt hf, ?_⟩
    by_contra hlen
    rw [List.getD_eq_default] at h
    · cases h
    · omega

/-- Marked floors lie within the building range (given the allocated
array lengths). -/
theorem marked_range (e : Elevator) (hu : e.upStops.length = (e.maxFloor - e.minFloor + 1).toNat)
    (hd : e.downStops.length = (e.maxFloor - e.minFloor + 1).toNat) (f : Int)
    (h : marked e f) : e.minFloor ≤ f ∧ f ≤ e.maxFloor := by
  rcases h with h | h
  · obtain ⟨h1, h2⟩ := stopTest_true_bounds _ _ _ h
    rw [hu] at h2
    omega
  · obtain ⟨h1, h2⟩ := stopTest_true_bounds _ _ _ h
    rw [hd] at h2
    omega

/-- `marked` is a decidable, stop-array-level notion: it ignores every
field except the stop arrays and `minFloor`. -/
theorem marked_congr (e1 e2 : Elevator) (hu : e1.upStops = e2.upStops)
    (hd : e1.downStops = e2.downStops) (hm : e1.minFloor = e2.minFloor) (f : Int) :
    marked e1 f ↔ marked e2 f := by
  unfold marked
  rw [hu, hd, hm]

/-- The invariant holds at `NewElevator` for any non-empty floor
range. -/
theorem inv_newElevator (id minF maxF : Int) (h : minF ≤ maxF) :
    Inv (newElevator id minF maxF) := by
  have hmk : ∀ f, ¬marked (newElevator id minF maxF) f := by
    intro f hf
    have hrep : (List.replicate (maxF - minF + 1).toNat false).getD (f - minF).toNat false
        = false := by
      rw [List.getD_eq_getElem?_getD, List.getElem?_replicate]
      split <;> rfl
    rcases hf with hf | hf <;>
    · unfold stopTest newElevator at hf
      dsimp only at hf
      split at hf
      · cases hf
      · rw [hrep] at hf
        cases hf
  refine ⟨?_, ?_, le_refl _, h, fun f hf => absurd hf (hmk f), fun f hf => absurd hf (hmk f),
    fun _ => rfl, fun _ => rfl, fun hs => ElevatorState.noConfusion hs, fun hs => ElevatorState.noConfusion hs,
    fun hne => absurd hne.choose_spec (hmk hne.choose),
    fun hne => absurd hne.choose_spec (hmk hne.choose), fun _ => rfl⟩
  · simp [newElevator]
  · simp [newElevator]

/-- The marked-index test driving `recalcBounds`. -/
def markedIdx (e : Elevator) (i : Nat) : Bool :=
  e.upStops.getD i false || e.downStops.getD i false

theorem marked_iff_markedIdx (e : Elevator) (i : Nat) :
    marked e ((i : Int) + e.minFloor) ↔ markedIdx e i = true := by
  unfold marked markedIdx stopTest
  have hnl : ¬((i : Int) + e.minFloor < e.minFloor) := by omega
  have hidx : (((i : Int) + e.minFloor) - e.minFloor).toNat = i := by omega
  rw [if_neg hnl, if_neg hnl, hidx, Bool.or_eq_true]

theorem marked_exists_idx (e : Elevator) (f : Int) (h : marked e f) :
    ∃ i : Nat, f = (i : Int) + e.minFloor ∧ markedIdx e i = true ∧
      (i < e.upStops.length ∨ i < e.downStops.length) := by
  rcases h with h | h
  · obtain ⟨h1, h2⟩ := stopTest_true_bounds _ _ _ h
    refine ⟨(f - e.minFloor).toNat, by omega, ?_, Or.inl h2⟩
    rw [← marked_iff_markedIdx]
    have : ((f - e.minFloor).toNat : Int) + e.minFloor = f := by omega
    rw [this]
    exact Or.inl h
  · obtain ⟨h1, h2⟩ := stopTest_true_bounds _ _ _ h
    refine ⟨(f - e.minFloor).toNat, by omega, ?_, Or.inr h2⟩
    rw [← marked_iff_markedIdx]
    have : ((f - e.minFloor).toNat : Int) + e.minFloor = f := by omega
    rw [this]
    exact Or.inr h

/-- Complete specification of the `recalcBounds` scan over any index
list: the result bounds shrink/grow monotonically, cover every marked
index it visits, and each final bound is either the start sentinel or a
visited marked floor. -/
theorem recalcFold_spec (e : Elevator) (is : List Nat) : ∀ (mn mx : Int),
    (is.foldl (recalcFoldF e) (mn, mx)).1 ≤ mn ∧
    mx ≤ (is.foldl (recalcFoldF e) (mn, mx)).2 ∧
    (∀ i ∈ is, markedIdx e i = true →
      (is.foldl (recalcFoldF e) (mn, mx)).1 ≤ (i : Int) + e.minFloor ∧
      (i : Int) + e.minFloor ≤ (is.foldl (recalcFoldF e) (mn, mx)).2) ∧
    ((is.foldl (recalcFoldF e) (mn, mx)).1 = mn ∨
      ∃ i ∈ is, markedIdx e i = true ∧
        (is.foldl (recalcFoldF e) (mn, mx)).1 = (i : Int) + e.minFloor) ∧
    ((is.foldl (recalcFoldF e) (mn, mx)).2 = mx ∨
      ∃ i ∈ is, markedIdx e i = true ∧
        (is.foldl (recalcFoldF e) (mn, mx)).2 = (i : Int) + e.minFloor) := by
  induction is with
  | nil =>
      intro mn mx
      exact ⟨le_refl _, le_refl _, fun i hi => absurd hi (List.not_mem_nil i),
        Or.inl rfl, Or.inl rfl⟩
  | cons i is ih =>
      intro mn mx
      rw [List.foldl_cons]
      by_cases hm : markedIdx e i = true
      · have hstep : recalcFoldF e (mn, mx) i =
            (if (i : Int) + e.minFloor < mn then (i : Int) + e.minFloor else mn,
              if (i : Int) + e.minFloor > mx then (i : Int) + e.minFloor else mx) := by
          have hm2 : (e.upStops.getD i false || e.downStops.getD i false) = true := hm
          unfold recalcFoldF
          rw [if_pos hm2]
        rw [hstep]
        obtain ⟨ih1, ih2, ih3, ih4, ih5⟩ := ih
          (if (i : Int) + e.minFloor < mn then (i : Int) + e.minFloor else mn)
          (if (i : Int) + e.minFloor > mx then (i : Int) + e.minFloor else mx)
        have hmn1 : (if (i : Int) + e.minFloor < mn then (i : Int) + e.minFloor else mn) ≤ mn := by
          split <;> omega
        have hmn2 : (if (i : Int) + e.minFloor < mn then (i : Int) + e.minFloor else mn) ≤
            (i : Int) + e.minFloor := by
          split <;> omega
        have hmx1 : mx ≤ (if (i : Int) + e.minFloor > mx then (i : Int) + e.minFloor else mx) := by
          split <;> omega
        have hmx2 : (i : Int) + e.minFloor ≤
            (if (i : Int) + e.minFloor > mx then (i : Int) + e.minFloor else mx) := by
          split <;> omega
        refine ⟨le_trans ih1 hmn1, le_trans hmx1 ih2, ?_, ?_, ?_⟩
        · intro k hk hmk
          rcases List.mem_cons.mp hk with hk | hk
          · subst hk
            exact ⟨le_trans ih1 hmn2, le_trans hmx2 ih2⟩
          · exact ih3 k hk hmk
        · rcases ih4 with h4 | ⟨k, hk, hmk, hke⟩
          · rw [h4]
            split
            · exact Or.inr ⟨i, List.mem_cons_self i is, hm, rfl⟩
            · exact Or.inl rfl
          · exact Or.inr ⟨k, List.mem_cons_of_mem i hk, hmk, hke⟩
        · rcases ih5 with h5 | ⟨k, hk, hmk, hke⟩
          · rw [h5]
            split
            · exact Or.inr ⟨i, List.mem_cons_self i is, hm, rfl⟩
            · exact Or.inl rfl
          · exact Or.inr ⟨k, List.mem_cons_of_mem i hk, hmk, hke⟩
      · have hstep : recalcFoldF e (mn, mx) i = (mn, mx) := by
          have hm2 : ¬(e.upStops.getD i false || e.downStops.getD i false) = true := hm
          unfold recalcFoldF
          rw [if_neg hm2]
        rw [hstep]
        obtain ⟨ih1, ih2, ih3, ih4, ih5⟩ := ih mn mx
        refine ⟨ih1, ih2, ?_, ?_, ?_⟩
        · intro k hk hmk
          rcases List.mem_cons.mp hk with hk | hk
          · subst hk
            exact absurd hmk hm
          · exact ih3 k hk hmk
        · rcases ih4 with h4 | ⟨k, hk, hmk, hke⟩
          · exact Or.inl h4
          · exact Or.inr ⟨k, List.mem_cons_of_mem i hk, hmk, hke⟩
        · rcases ih5 with h5 | ⟨k, hk, hmk, hke⟩
          · exact Or.inl h5
          · exact Or.inr ⟨k, List.mem_cons_of_mem i hk, hmk, hke⟩

theorem recalcBounds_minRequest (e : Elevator) :
    (recalcBounds e).minRequest =
      ((List.range e.upStops.length).foldl (recalcFoldF e) (e.maxFloor + 1, e.minFloor - 1)).1 :=
  rfl

theorem recalcBounds_maxRequest (e : Elevator) :
    (recalcBounds e).maxRequest =
      ((List.range e.upStops.length).foldl (recalcFoldF e) (e.maxFloor + 1, e.minFloor - 1)).2 :=
  rfl

/-- After `recalcBounds` the bounds cover every marked floor. -/
theorem recalc_le (e : Elevator) (hud : e.downStops.length = e.upStops.length) :
    ∀ f, marked e f →
      (recalcBounds e).minRequest ≤ f ∧ f ≤ (recalcBounds e).maxRequest := by
  intro f hf
  obtain ⟨i, hfi, hmi, hilt⟩ := marked_exists_idx e f hf
  have hmem : i ∈ List.range e.upStops.length := by
    rw [List.mem_range]
    rcases hilt with h | h
    · exact h
    · omega
  obtain ⟨_, _, h3, _, _⟩ :=
    recalcFold_spec e (List.range e.upStops.length) (e.maxFloor + 1) (e.minFloor - 1)
  obtain ⟨hl, hr⟩ := h3 i hmem hmi
  rw [recalcBounds_minRequest, recalcBounds_maxRequest, hfi]
  exact ⟨hl, hr⟩

/-- After `recalcBounds` on an unmarked car the bounds are the empty
sentinels. -/
theorem recalc_empty (e : Elevator) (h : ∀ f, ¬marked e f) :
    (recalcBounds e).minRequest = e.maxFloor + 1 ∧
      (recalcBounds e).maxRequest = e.minFloor - 1 := by
  obtain ⟨_, _, _, h4, h5⟩ :=
    recalcFold_spec e (List.range e.upStops.length) (e.maxFloor + 1) (e.minFloor - 1)
  rw [recalcBounds_minRequest, recalcBounds_maxRequest]
  constructor
  · rcases h4 with h4 | ⟨i, _, hmi, _⟩
    · exact h4
    · exact absurd ((marked_iff_markedIdx e i).mpr hmi) (h _)
  · rcases h5 with h5 | ⟨i, _, hmi, _⟩
    · exact h5
    · exact absurd ((marked_iff_markedIdx e i).mpr hmi) (h _)

/-- After `recalcBounds` on a marked car, both bounds are themselves
marked floors (the cached bounds become exact). -/
theorem recalc_marked (e : Elevator) (hud : e.downStops.length = e.upStops.length)
    (hu : e.upStops.length = (e.maxFloor - e.minFloor + 1).toNat)
    (h : ∃ f, marked e f) :
    marked e (recalcBounds e).minRequest ∧ marked e (recalcBounds e).maxRequest := by
  obtain ⟨f, hf⟩ := h
  obtain ⟨hl, hr⟩ := recalc_le e hud f hf
  have hd : e.downStops.length = (e.maxFloor - e.minFloor + 1).toNat := by
    rw [hud, hu]
  obtain ⟨hfl, hfh⟩ := marked_range e hu hd f hf
  obtain ⟨_, _, _, h4, h5⟩ :=
    recalcFold_spec e (List.range e.upStops.length) (e.maxFloor + 1) (e.minFloor - 1)
  rw [recalcBounds_minRequest, recalcBounds_maxRequest] at *
  constructor
  · rcases h4 with h4 | ⟨i, _, hmi, hie⟩
    · omega
    · rw [hie]
      exact (marked_iff_markedIdx e i).mpr hmi
  · rcases h5 with h5 | ⟨i, _, hmi, hie⟩
    · omega
    · rw [hie]
      exact (marked_iff_markedIdx e i).mpr hmi

/-- A `recalcBounds` result in DoorOpen state satisfies the invariant:
the rescan makes both cached bounds exact, so every bounds-related
clause holds outright. -/
theorem inv_recalcBounds_doorOpen (e1 : Elevator)
    (hu1 : e1.upStops.length = (e1.maxFloor - e1.minFloor + 1).toNat)
    (hd1 : e1.downStops.length = (e1.maxFloor - e1.minFloor + 1).toNat)
    (hflo : e1.minFloor ≤ e1.currentFloor) (hfhi : e1.currentFloor ≤ e1.maxFloor)
    (hst : e1.state = stateDoorOpen) :
    Inv (recalcBounds e1) := by
  have hud1 : e1.downStops.length = e1.upStops.length := by
    rw [hu1, hd1]
  have hRm : ∀ f, marked (recalcBounds e1) f ↔ marked e1 f := fun f =>
    marked_congr _ _ rfl rfl rfl f
  have hstR : (recalcBounds e1).state = stateDoorOpen := by
    rw [recalcBounds_state, hst]
  refine ⟨hu1, hd1, hflo, hfhi, ?_, ?_, ?_, ?_, ?_, ?_, ?_, ?_, ?_⟩
  · intro f hf
    exact (recalc_le e1 hud1 f ((hRm f).mp hf)).1
  · intro f hf
    exact (recalc_le e1 hud1 f ((hRm f).mp hf)).2
  · intro hnone
    exact (recalc_empty e1 fun f hf => hnone f ((hRm f).mpr hf)).1
  · intro hnone
    exact (recalc_empty e1 fun f hf => hnone f ((hRm f).mpr hf)).2
  · intro hs
    rw [hstR] at hs
    exact ElevatorState.noConfusion hs
  · intro hs
    rw [hstR] at hs
    exact ElevatorState.noConfusion hs
  · intro hne hmin
    exfalso
    refine hmin ((hRm _).mpr ?_)
    refine (recalc_marked e1 hud1 hu1 ?_).1
    obtain ⟨f, hf⟩ := hne
    exact ⟨f, (hRm f).mp hf⟩
  · intro hne hmax
    exfalso
    refine hmax ((hRm _).mpr ?_)
    refine (recalc_marked e1 hud1 hu1 ?_).2
    obtain ⟨f, hf⟩ := hne
    exact ⟨f, (hRm f).mp hf⟩
  · intro hs
    rw [hstR] at hs
    exact ElevatorState.noConfusion hs

/-- A DoorOpen state obtained from an invariant-worthy pre-state by
clearing exactly the current floor, with unchanged cached bounds that
do not include the current floor, satisfies the invariant. -/
theorem inv_openDoor_noRecalc (e e1 : Elevator)
    (hm1 : ∀ f, marked e1 f ↔ (marked e f ∧ f ≠ e.currentFloor))
    (hlu : e1.upStops.length = e.upStops.length)
    (hld : e1.downStops.length = e.downStops.length)
    (hemf : e1.minFloor = e.minFloor) (hexf : e1.maxFloor = e.maxFloor)
    (hecf : e1.currentFloor = e.currentFloor)
    (hemr : e1.minRequest = e.minRequest) (hexr : e1.maxRequest = e.maxRequest)
    (hest : e1.state = stateDoorOpen) (hedir : e1.direction = e.direction)
    (hu : e.upStops.length = (e.maxFloor - e.minFloor + 1).toNat)
    (hd : e.downStops.length = (e.maxFloor - e.minFloor + 1).toNat)
    (hflo : e.minFloor ≤ e.currentFloor) (hfhi : e.currentFloor ≤ e.maxFloor)
    (hblo : ∀ f, marked e f → e.minRequest ≤ f)
    (hbhi : ∀ f, marked e f → f ≤ e.maxRequest)
    (hemin : (∀ f, ¬marked e f) → e.minRequest = e.maxFloor + 1)
    (hemax : (∀ f, ¬marked e f) → e.maxRequest = e.minFloor - 1)
    (hpm : (∃ f, marked e f) → ¬marked e e.minRequest →
      marked e e.maxRequest ∧ e.minFloor ≤ e.minRequest ∧ e.direction = dirUp ∧
        e.maxRequest ≥ e.currentFloor)
    (hpx : (∃ f, marked e f) → ¬marked e e.maxRequest →
      marked e e.minRequest ∧ e.maxRequest ≤ e.maxFloor ∧ e.direction = dirDown ∧
        e.minRequest ≤ e.currentFloor)
    (hcm : ¬e.currentFloor = e.minRequest) (hcx : ¬e.currentFloor = e.maxRequest) :
    Inv e1 := by
  refine ⟨?_, ?_, ?_, ?_, ?_, ?_, ?_, ?_, ?_, ?_, ?_, ?_, ?_⟩
  · rw [hlu, hemf, hexf, hu]
  · rw [hld, hemf, hexf, hd]
  · rw [hemf, hecf]
    exact hflo
  · rw [hexf, hecf]
    exact hfhi
  · intro f hf
    rw [hemr]
    exact hblo f ((hm1 f).mp hf).1
  · intro f hf
    rw [hexr]
    exact hbhi f ((hm1 f).mp hf).1
  · intro hnone
    rw [hemr, hexf]
    by_cases hcfm : marked e e.currentFloor
    · exfalso
      by_cases hminm : marked e e.minRequest
      · exact hnone e.minRequest ((hm1 _).mpr ⟨hminm, fun hc => hcm hc.symm⟩)
      · obtain ⟨hmx, _, _, _⟩ := hpm ⟨_, hcfm⟩ hminm
        exact hnone e.maxRequest ((hm1 _).mpr ⟨hmx, fun hc => hcx hc.symm⟩)
    · refine hemin fun f hf => ?_
      by_cases hfe : f = e.currentFloor
      · exact hcfm (hfe ▸ hf)
      · exact hnone f ((hm1 f).mpr ⟨hf, hfe⟩)
  · intro hnone
    rw [hexr, hemf]
    by_cases hcfm : marked e e.currentFloor
    · exfalso
      by_cases hminm : marked e e.minRequest
      · exact hnone e.minRequest ((hm1 _).mpr ⟨hminm, fun hc => hcm hc.symm⟩)
      · obtain ⟨hmx, _, _, _⟩ := hpm ⟨_, hcfm⟩ hminm
        exact hnone e.maxRequest ((hm1 _).mpr ⟨hmx, fun hc => hcx hc.symm⟩)
    · refine hemax fun f hf => ?_
      by_cases hfe : f = e.currentFloor
      · exact hcfm (hfe ▸ hf)
      · exact hnone f ((hm1 f).mpr ⟨hf, hfe⟩)
  · intro hs
    rw [hest] at hs
    exact ElevatorState.noConfusion hs
  · intro hs
    rw [hest] at hs
    exact ElevatorState.noConfusion hs
  · intro hne hmin
    obtain ⟨f0, hf0⟩ := hne
    obtain ⟨hf0e, _⟩ := (hm1 f0).mp hf0
    rw [hemr] at hmin
    have hminm : ¬marked e e.minRequest := by
      intro hmk
      exact hmin ((hm1 _).mpr ⟨hmk, fun hc => hcm hc.symm⟩)
    obtain ⟨hmx, hmf, hdir, hge⟩ := hpm ⟨f0, hf0e⟩ hminm
    rw [hemr, hexr, hemf, hedir, hecf]
    refine ⟨(hm1 _).mpr ⟨hmx, fun hc => hcx hc.symm⟩, hmf, Or.inr ⟨hest, hdir, ?_⟩⟩
    rcases lt_or_eq_of_le hge with h | h
    · exact h
    · exact absurd h.symm (fun hc => hcx hc.symm)
  · intro hne hmax
    obtain ⟨f0, hf0⟩ := hne
    obtain ⟨hf0e, _⟩ := (hm1 f0).mp hf0
    rw [hexr] at hmax
    have hmaxm : ¬marked e e.maxRequest := by
      intro hmk
      exact hmax ((hm1 _).mpr ⟨hmk, fun hc => hcx hc.symm⟩)
    obtain ⟨hmn, hmf, hdir, hle⟩ := hpx ⟨f0, hf0e⟩ hmaxm
    rw [hemr, hexr, hexf, hedir, hecf]
    refine ⟨(hm1 _).mpr ⟨hmn, fun hc => hcm hc.symm⟩, hmf, Or.inr ⟨hest, hdir, ?_⟩⟩
    rcases lt_or_eq_of_le hle with h | h
    · exact h
    · exact absurd h (fun hc => hcm hc.symm)
  · intro hs
    rw [hest] at hs
    exact ElevatorState.noConfusion hs

/-- `openDoor` preserves the invariant. The phantom hypotheses `hpm`
and `hpx` distil what every call site knows about a phantom bound at
the moment the door opens: its sweep direction and that the opposite
bound is exact and not closer than the current floor. -/
theorem inv_openDoor (e : Elevator)
    (hu : e.upStops.length = (e.maxFloor - e.minFloor + 1).toNat)
    (hd : e.downStops.length = (e.maxFloor - e.minFloor + 1).toNat)
    (hflo : e.minFloor ≤ e.currentFloor) (hfhi : e.currentFloor ≤ e.maxFloor)
    (hblo : ∀ f, marked e f → e.minRequest ≤ f)
    (hbhi : ∀ f, marked e f → f ≤ e.maxRequest)
    (hemin : (∀ f, ¬marked e f) → e.minRequest = e.maxFloor + 1)
    (hemax : (∀ f, ¬marked e f) → e.maxRequest = e.minFloor - 1)
    (hpm : (∃ f, marked e f) → ¬marked e e.minRequest →
      marked e e.maxRequest ∧ e.minFloor ≤ e.minRequest ∧ e.direction = dirUp ∧
        e.maxRequest ≥ e.currentFloor)
    (hpx : (∃ f, marked e f) → ¬marked e e.maxRequest →
      marked e e.minRequest ∧ e.maxRequest ≤ e.maxFloor ∧ e.direction = dirDown ∧
        e.minRequest ≤ e.currentFloor) :
    Inv (openDoor e) := by
  have hm1 : ∀ f,
      (stopTest (stopWrite e.upStops e.minFloor e.currentFloor false) e.minFloor f = true ∨
        stopTest (stopWrite e.downStops e.minFloor e.currentFloor false) e.minFloor f = true) ↔
      (marked e f ∧ f ≠ e.currentFloor) := by
    intro f
    by_cases hfe : f = e.currentFloor
    · subst hfe
      rw [stopTest_stopWrite_self, stopTest_stopWrite_self]
      constructor
      · rintro (h | h) <;> cases h
      · rintro ⟨_, hne⟩
        exact absurd rfl hne
    · unfold marked
      rw [stopTest_stopWrite_ne _ _ _ _ _ hfe, stopTest_stopWrite_ne _ _ _ _ _ hfe]
      exact ⟨fun h => ⟨h, hfe⟩, fun h => h.1⟩
  unfold openDoor
  dsimp only
  split
  · refine inv_recalcBounds_doorOpen _ ?_ ?_ hflo hfhi rfl
    · show (stopWrite e.upStops e.minFloor e.currentFloor false).length = _
      rw [stopWrite_length]
      exact hu
    · show (stopWrite e.downStops e.minFloor e.currentFloor false).length = _
      rw [stopWrite_length]
      exact hd
  · rename_i hB
    push_neg at hB
    exact inv_openDoor_noRecalc e _ hm1 (stopWrite_length _ _ _ _) (stopWrite_length _ _ _ _)
      rfl rfl rfl rfl rfl rfl rfl hu hd hflo hfhi hblo hbhi hemin hemax hpm hpx hB.1 hB.2

/-- Build the invariant for a state `e2` that shares stop arrays,
bounds, floors and cached requests with an invariant-worthy `e`,
given proofs of just the state/direction-dependent clauses. -/
theorem inv_mk_static (e e2 : Elevator)
    (h2u : e2.upStops = e.upStops) (h2d : e2.downStops = e.downStops)
    (h2mf : e2.minFloor = e.minFloor) (h2xf : e2.maxFloor = e.maxFloor)
    (h2cf : e2.currentFloor = e.currentFloor)
    (h2mr : e2.minRequest = e.minRequest) (h2xr : e2.maxRequest = e.maxRequest)
    (hu : e.upStops.length = (e.maxFloor - e.minFloor + 1).toNat)
    (hd : e.downStops.length = (e.maxFloor - e.minFloor + 1).toNat)
    (hflo : e.minFloor ≤ e.currentFloor) (hfhi : e.currentFloor ≤ e.maxFloor)
    (hblo : ∀ f, marked e f → e.minRequest ≤ f)
    (hbhi : ∀ f, marked e f → f ≤ e.maxRequest)
    (hemin : (∀ f, ¬marked e f) → e.minRequest = e.maxFloor + 1)
    (hemax : (∀ f, ¬marked e f) → e.maxRequest = e.minFloor - 1)
    (m1 : e2.state = stateMovingUp →
      e2.direction = dirUp ∧ marked e e.maxRequest ∧ e.maxRequest > e.currentFloor)
    (m2 : e2.state = stateMovingDown →
      e2.direction = dirDown ∧ marked e e.minRequest ∧ e.minRequest < e.currentFloor)
    (p1 : (∃ f, marked e f) → ¬marked e e.minRequest →
      marked e e.maxRequest ∧ e.minFloor ≤ e.minRequest ∧
        (e2.state = stateMovingUp ∨
          (e2.state = stateDoorOpen ∧ e2.direction = dirUp ∧
            e.maxRequest > e.currentFloor)))
    (p2 : (∃ f, marked e f) → ¬marked e e.maxRequest →
      marked e e.minRequest ∧ e.maxRequest ≤ e.maxFloor ∧
        (e2.state = stateMovingDown ∨
          (e2.state = stateDoorOpen ∧ e2.direction = dirDown ∧
            e.minRequest < e.currentFloor)))
    (i1 : e2.state = stateIdle → e2.direction = dirIdle) :
    Inv e2 := by
  have hm : ∀ f, marked e2 f ↔ marked e f := fun f => marked_congr _ _ h2u h2d h2mf f
  refine ⟨?_, ?_, ?_, ?_, ?_, ?_, ?_, ?_, ?_, ?_, ?_, ?_, i1⟩
  · rw [h2u, h2mf, h2xf, hu]
  · rw [h2d, h2mf, h2xf, hd]
  · rw [h2mf, h2cf]
    exact hflo
  · rw [h2xf, h2cf]
    exact hfhi
  · intro f hf
    rw [h2mr]
    exact hblo f ((hm f).mp hf)
  · intro f hf
    rw [h2xr]
    exact hbhi f ((hm f).mp hf)
  · intro hnone
    rw [h2mr, h2xf]
    exact hemin fun f hf => hnone f ((hm f).mpr hf)
  · intro hnone
    rw [h2xr, h2mf]
    exact hemax fun f hf => hnone f ((hm f).mpr hf)
  · intro hs
    obtain ⟨ha, hb, hc⟩ := m1 hs
    rw [h2xr, h2cf]
    exact ⟨ha, (hm _).mpr hb, hc⟩
  · intro hs
    obtain ⟨ha, hb, hc⟩ := m2 hs
    rw [h2mr, h2cf]
    exact ⟨ha, (hm _).mpr hb, hc⟩
  · intro hne hmin
    rw [h2mr] at hmin ⊢
    rw [h2xr, h2mf, h2cf]
    obtain ⟨f0, hf0⟩ := hne
    obtain ⟨ha, hb, hc⟩ := p1 ⟨f0, (hm f0).mp hf0⟩ (fun hk => hmin ((hm _).mpr hk))
    exact ⟨(hm _).mpr ha, hb, hc⟩
  · intro hne hmax
    rw [h2xr] at hmax ⊢
    rw [h2mr, h2xf, h2cf]
    obtain ⟨f0, hf0⟩ := hne
    obtain ⟨ha, hb, hc⟩ := p2 ⟨f0, (hm f0).mp hf0⟩ (fun hk => hmax ((hm _).mpr hk))
    exact ⟨(hm _).mpr ha, hb, hc⟩

/-- `pickDirection` preserves the invariant, given the call-site
knowledge about any phantom bound (its sweep direction, strict
separation from the current floor, and exactness of the opposite
bound). -/
theorem inv_pickDirection (e : Elevator)
    (hu : e.upStops.length = (e.maxFloor - e.minFloor + 1).toNat)
    (hd : e.downStops.length = (e.maxFloor - e.minFloor + 1).toNat)
    (hflo : e.minFloor ≤ e.currentFloor) (hfhi : e.currentFloor ≤ e.maxFloor)
    (hblo : ∀ f, marked e f → e.minRequest ≤ f)
    (hbhi : ∀ f, marked e f → f ≤ e.maxRequest)
    (hemin : (∀ f, ¬marked e f) → e.minRequest = e.maxFloor + 1)
    (hemax : (∀ f, ¬marked e f) → e.maxRequest = e.minFloor - 1)
    (hpm : (∃ f, marked e f) → ¬marked e e.minRequest →
      marked e e.maxRequest ∧ e.minFloor ≤ e.minRequest ∧ e.direction = dirUp ∧
        e.maxRequest > e.currentFloor)
    (hpx : (∃ f, marked e f) → ¬marked e e.maxRequest →
      marked e e.minRequest ∧ e.maxRequest ≤ e.maxFloor ∧ e.direction = dirDown ∧
        e.minRequest < e.currentFloor) :
    Inv (pickDirection e) := by
  have hAiff : hasStopsAbove e = true ↔ e.maxRequest > e.currentFloor := by
    unfold hasStopsAbove
    exact decide_eq_true_iff
  have hBiff : hasStopsBelow e = true ↔ e.minRequest < e.currentFloor := by
    unfold hasStopsBelow
    exact decide_eq_true_iff
  have hneA : hasStopsAbove e = true → ∃ f, marked e f := by
    intro hA
    by_contra hno
    push_neg at hno
    have h1 := hemax hno
    have h2 := hAiff.mp hA
    omega
  have hneB : hasStopsBelow e = true → ∃ f, marked e f := by
    intro hB
    by_contra hno
    push_neg at hno
    have h1 := hemin hno
    have h2 := hBiff.mp hB
    omega
  have hmaxmk : e.direction ≠ dirDown → (∃ f, marked e f) → marked e e.maxRequest := by
    intro hnd hne
    by_cases h : marked e e.maxRequest
    · exact h
    · obtain ⟨_, _, hdd, _⟩ := hpx hne h
      exact absurd hdd hnd
  have hminmk : e.direction ≠ dirUp → (∃ f, marked e f) → marked e e.minRequest := by
    intro hnu hne
    by_cases h : marked e e.minRequest
    · exact h
    · obtain ⟨_, _, hdu, _⟩ := hpm hne h
      exact absurd hdu hnu
  unfold pickDirection
  split
  · -- e.direction = dirUp
    rename_i hdir
    split
    · rename_i hA
      refine inv_mk_static e _ rfl rfl rfl rfl rfl rfl rfl hu hd hflo hfhi hblo hbhi hemin hemax
        ?_ ?_ ?_ ?_ ?_
      · intro _
        exact ⟨hdir, hmaxmk (by rw [hdir]; exact fun hc => Direction.noConfusion hc) (hneA hA),
          hAiff.mp hA⟩
      · intro hs
        exact ElevatorState.noConfusion hs
      · intro hne hmin
        obtain ⟨ha, hb, _, _⟩ := hpm hne hmin
        exact ⟨ha, hb, Or.inl rfl⟩
      · intro hne hmax
        exfalso
        obtain ⟨_, _, hdd, _⟩ := hpx hne hmax
        rw [hdir] at hdd
        exact Direction.noConfusion hdd
      · intro hs
        exact ElevatorState.noConfusion hs
    · rename_i hA
      split
      · rename_i hB
        refine inv_mk_static e _ rfl rfl rfl rfl rfl rfl rfl hu hd hflo hfhi hblo hbhi hemin
          hemax ?_ ?_ ?_ ?_ ?_
        · intro hs
          exact ElevatorState.noConfusion hs
        · intro _
          refine ⟨rfl, ?_, hBiff.mp hB⟩
          by_cases h : marked e e.minRequest
          · exact h
          · exfalso
            obtain ⟨_, _, _, hstrict⟩ := hpm (hneB hB) h
            exact hA (hAiff.mpr hstrict)
        · intro hne hmin
          exfalso
          obtain ⟨_, _, _, hstrict⟩ := hpm hne hmin
          exact hA (hAiff.mpr hstrict)
        · intro hne hmax
          exfalso
          obtain ⟨_, _, hdd, _⟩ := hpx hne hmax
          rw [hdir] at hdd
          exact Direction.noConfusion hdd
        · intro hs
          exact ElevatorState.noConfusion hs
      · rename_i hB
        refine inv_mk_static e _ rfl rfl rfl rfl rfl rfl rfl hu hd hflo hfhi hblo hbhi hemin
          hemax ?_ ?_ ?_ ?_ ?_
        · intro hs
          exact ElevatorState.noConfusion hs
        · intro hs
          exact ElevatorState.noConfusion hs
        · intro hne hmin
          exfalso
          obtain ⟨_, _, _, hstrict⟩ := hpm hne hmin
          exact hA (hAiff.mpr hstrict)
        · intro hne hmax
          exfalso
          obtain ⟨_, _, hdd, _⟩ := hpx hne hmax
          rw [hdir] at hdd
          exact Direction.noConfusion hdd
        · intro _
          rfl
  · -- e.direction = dirDown
    rename_i hdir
    split
    · rename_i hB
      refine inv_mk_static e _ rfl rfl rfl rfl rfl rfl rfl hu hd hflo hfhi hblo hbhi hemin hemax
        ?_ ?_ ?_ ?_ ?_
      · intro hs
        exact ElevatorState.noConfusion hs
      · intro _
        exact ⟨hdir, hminmk (by rw [hdir]; exact fun hc => Direction.noConfusion hc) (hneB hB),
          hBiff.mp hB⟩
      · intro hne hmin
        exfalso
        obtain ⟨_, _, hdu, _⟩ := hpm hne hmin
        rw [hdir] at hdu
        exact Direction.noConfusion hdu
      · intro hne hmax
        obtain ⟨ha, hb, _, _⟩ := hpx hne hmax
        exact ⟨ha, hb, Or.inl rfl⟩
      · intro hs
        exact ElevatorState.noConfusion hs
    · rename_i hB
      split
      · rename_i hA
        refine inv_mk_static e _ rfl rfl rfl rfl rfl rfl rfl hu hd hflo hfhi hblo hbhi hemin
          hemax ?_ ?_ ?_ ?_ ?_
        · intro _
          refine ⟨rfl, ?_, hAiff.mp hA⟩
          by_cases h : marked e e.maxRequest
          · exact h
          · exfalso
            obtain ⟨_, _, _, hstrict⟩ := hpx (hneA hA) h
            exact hB (hBiff.mpr hstrict)
        · intro hs
          exact ElevatorState.noConfusion hs
        · intro hne hmin
          exfalso
          obtain ⟨_, _, hdu, _⟩ := hpm hne hmin
          rw [hdir] at hdu
          exact Direction.noConfusion hdu
        · intro hne hmax
          exfalso
          obtain ⟨_, _, _, hstrict⟩ := hpx hne hmax
          exact hB (hBiff.mpr hstrict)
        · intro hs
          exact ElevatorState.noConfusion hs
      · rename_i hA
        refine inv_mk_static e _ rfl rfl rfl rfl rfl rfl rfl hu hd hflo hfhi hblo hbhi hemin
          hemax ?_ ?_ ?_ ?_ ?_
        · intro hs
          exact ElevatorState.noConfusion hs
        · intro hs
          exact ElevatorState.noConfusion hs
        · intro hne hmin
          exfalso
          obtain ⟨_, _, hdu, _⟩ := hpm hne hmin
          rw [hdir] at hdu
          exact Direction.noConfusion hdu
        · intro hne hmax
          exfalso
          obtain ⟨_, _, _, hstrict⟩ := hpx hne hmax
          exact hB (hBiff.mpr hstrict)
        · intro _
          rfl
  · -- e.direction = dirIdle
    rename_i hdir
    split
    · rename_i hA
      refine inv_mk_static e _ rfl rfl rfl rfl rfl rfl rfl hu hd hflo hfhi hblo hbhi hemin hemax
        ?_ ?_ ?_ ?_ ?_
      · intro _
        exact ⟨rfl, hmaxmk (by rw [hdir]; exact fun hc => Direction.noConfusion hc) (hneA hA),
          hAiff.mp hA⟩
      · intro hs
        exact ElevatorState.noConfusion hs
      · intro hne hmin
        exfalso
        obtain ⟨_, _, hdu, _⟩ := hpm hne hmin
        rw [hdir] at hdu
        exact Direction.noConfusion hdu
      · intro hne hmax
        exfalso
        obtain ⟨_, _, hdd, _⟩ := hpx hne hmax
        rw [hdir] at hdd
        exact Direction.noConfusion hdd
      · intro hs
        exact ElevatorState.noConfusion hs
    · rename_i hA
      split
      · rename_i hB
        refine inv_mk_static e _ rfl rfl rfl rfl rfl rfl rfl hu hd hflo hfhi hblo hbhi hemin
          hemax ?_ ?_ ?_ ?_ ?_
        · intro hs
          exact ElevatorState.noConfusion hs
        · intro _
          exact ⟨rfl, hminmk (by rw [hdir]; exact fun hc => Direction.noConfusion hc) (hneB hB),
            hBiff.mp hB⟩
        · intro hne hmin
          exfalso
          obtain ⟨_, _, hdu, _⟩ := hpm hne hmin
          rw [hdir] at hdu
          exact Direction.noConfusion hdu
        · intro hne hmax
          exfalso
          obtain ⟨_, _, hdd, _⟩ := hpx hne hmax
          rw [hdir] at hdd
          exact Direction.noConfusion hdd
        · intro hs
          exact ElevatorState.noConfusion hs
      · rename_i hB
        refine inv_mk_static e _ rfl rfl rfl rfl rfl rfl rfl hu hd hflo hfhi hblo hbhi hemin
          hemax ?_ ?_ ?_ ?_ ?_
        · intro hs
          exact ElevatorState.noConfusion hs
        · intro hs
          exact ElevatorState.noConfusion hs
        · intro hne hmin
          exfalso
          obtain ⟨_, _, hdu, _⟩ := hpm hne hmin
          rw [hdir] at hdu
          exact Direction.noConfusion hdu
        · intro hne hmax
          exfalso
          obtain ⟨_, _, hdd, _⟩ := hpx hne hmax
          rw [hdir] at hdd
          exact Direction.noConfusion hdd
        · intro _
          rfl

/-- `stepDoorOpen` preserves the invariant. -/
theorem inv_stepDoorOpen (e : Elevator) (hInv : Inv e) (hst : e.state = stateDoorOpen) :
    Inv (stepDoorOpen e) := by
  unfold stepDoorOpen
  dsimp only
  split
  · -- timer still positive: only the timer changed
    refine inv_mk_static e _ rfl rfl rfl rfl rfl rfl rfl hInv.lenUp hInv.lenDown hInv.floorLo
      hInv.floorHi hInv.boundsLo hInv.boundsHi hInv.emptyMin hInv.emptyMax ?_ ?_ ?_ ?_ ?_
    · intro hs
      exact hInv.movingUp hs
    · intro hs
      exact hInv.movingDown hs
    · intro hne hmin
      exact hInv.phantomMin hne hmin
    · intro hne hmax
      exact hInv.phantomMax hne hmax
    · intro hs
      exact hInv.idleDir hs
  · -- door closes: state becomes Idle, then pickDirection runs
    refine inv_pickDirection _ hInv.lenUp hInv.lenDown hInv.floorLo hInv.floorHi hInv.boundsLo
      hInv.boundsHi hInv.emptyMin hInv.emptyMax ?_ ?_
    · intro hne hmin
      obtain ⟨ha, hb, hc⟩ := hInv.phantomMin hne hmin
      rcases hc with hc | ⟨_, hdir, hgt⟩
      · rw [hst] at hc
        exact ElevatorState.noConfusion hc
      · exact ⟨ha, hb, hdir, hgt⟩
    · intro hne hmax
      obtain ⟨ha, hb, hc⟩ := hInv.phantomMax hne hmax
      rcases hc with hc | ⟨_, hdir, hlt⟩
      · rw [hst] at hc
        exact ElevatorState.noConfusion hc
      · exact ⟨ha, hb, hdir, hlt⟩

/-- `stepIdle` preserves the invariant. -/
theorem inv_stepIdle (e : Elevator) (hInv : Inv e) (hst : e.state = stateIdle) :
    Inv (stepIdle e) := by
  unfold stepIdle
  refine inv_pickDirection e hInv.lenUp hInv.lenDown hInv.floorLo hInv.floorHi hInv.boundsLo
    hInv.boundsHi hInv.emptyMin hInv.emptyMax ?_ ?_
  · intro hne hmin
    exfalso
    obtain ⟨_, _, hc⟩ := hInv.phantomMin hne hmin
    rcases hc with hc | ⟨hc, _, _⟩ <;>
    · rw [hst] at hc
      exact ElevatorState.noConfusion hc
  · intro hne hmax
    exfalso
    obtain ⟨_, _, hc⟩ := hInv.phantomMax hne hmax
    rcases hc with hc | ⟨hc, _, _⟩ <;>
    · rw [hst] at hc
      exact ElevatorState.noConfusion hc

/-- An upward `stepMove` preserves the invariant: the cached
`maxRequest` is exact and marked while moving up, so the car either
stops at it or remains strictly below it. -/
theorem inv_stepMove_up (e : Elevator) (hInv : Inv e) (hst : e.state = stateMovingUp) :
    Inv (stepMove e dirUp) := by
  obtain ⟨hdir, hmk, hgt⟩ := hInv.movingUp hst
  obtain ⟨hmklo, hmkhi⟩ := marked_range e hInv.lenUp hInv.lenDown _ hmk
  have hflo := hInv.floorLo
  have hfhi := hInv.floorHi
  have hup1 : e.currentFloor + 1 ≤ e.maxFloor := by omega
  unfold stepMove
  simp only [reduceCtorEq, reduceIte]
  by_cases hstop : shouldStop { e with currentFloor := e.currentFloor + 1 } dirUp = true
  · rw [if_pos hstop]
    refine inv_openDoor _ hInv.lenUp hInv.lenDown (by dsimp only; omega)
      (by dsimp only; omega) hInv.boundsLo hInv.boundsHi hInv.emptyMin hInv.emptyMax ?_ ?_
    · intro hne hmin
      obtain ⟨ha, hb, hc⟩ := hInv.phantomMin hne hmin
      rcases hc with _ | ⟨hc, _, _⟩
      · exact ⟨ha, hb, hdir, by dsimp only; omega⟩
      · rw [hst] at hc
        exact ElevatorState.noConfusion hc
    · intro hne hmax
      exact absurd hmk hmax
  · rw [if_neg hstop]
    have hgt1 : e.maxRequest > e.currentFloor + 1 := by
      by_contra hle
      push_neg at hle
      have hEq : e.maxRequest = e.currentFloor + 1 := by omega
      apply hstop
      unfold shouldStop
      rw [if_pos rfl, Bool.or_eq_true]
      rcases hEq ▸ hmk with h | h
      · exact Or.inl h
      · refine Or.inr ?_
        have hAf : hasStopsAbove { e with currentFloor := e.currentFloor + 1 } = false := by
          unfold hasStopsAbove
          exact decide_eq_false (by dsimp only; omega)
        rw [Bool.and_eq_true, hAf]
        exact ⟨rfl, h⟩
    refine ⟨hInv.lenUp, hInv.lenDown, by dsimp only; omega, by dsimp only; omega, hInv.boundsLo,
      hInv.boundsHi, hInv.emptyMin, hInv.emptyMax, ?_, ?_, ?_, ?_, ?_⟩
    · intro _
      exact ⟨hdir, hmk, hgt1⟩
    · intro hs
      have hs2 : e.state = stateMovingDown := hs
      rw [hst] at hs2
      exact ElevatorState.noConfusion hs2
    · intro hne hmin
      obtain ⟨ha, hb, hc⟩ := hInv.phantomMin hne hmin
      rcases hc with _ | ⟨hc, _, _⟩
      · exact ⟨ha, hb, Or.inl hst⟩
      · rw [hst] at hc
        exact ElevatorState.noConfusion hc
    · intro hne hmax
      exact absurd hmk hmax
    · intro hs
      have hs2 : e.state = stateIdle := hs
      rw [hst] at hs2
      exact ElevatorState.noConfusion hs2

/-- A downward `stepMove` preserves the invariant. -/
theorem inv_stepMove_down (e : Elevator) (hInv : Inv e) (hst : e.state = stateMovingDown) :
    Inv (stepMove e dirDown) := by
  obtain ⟨hdir, hmk, hlt⟩ := hInv.movingDown hst
  obtain ⟨hmklo, hmkhi⟩ := marked_range e hInv.lenUp hInv.lenDown _ hmk
  have hflo := hInv.floorLo
  have hfhi := hInv.floorHi
  have hdn1 : e.minFloor ≤ e.currentFloor - 1 := by omega
  unfold stepMove
  simp only [reduceCtorEq, reduceIte]
  by_cases hstop : shouldStop { e with currentFloor := e.currentFloor - 1 } dirDown = true
  · rw [if_pos hstop]
    refine inv_openDoor _ hInv.lenUp hInv.lenDown (by dsimp only; omega)
      (by dsimp only; omega) hInv.boundsLo hInv.boundsHi hInv.emptyMin hInv.emptyMax ?_ ?_
    · intro hne hmin
      exact absurd hmk hmin
    · intro hne hmax
      obtain ⟨ha, hb, hc⟩ := hInv.phantomMax hne hmax
      rcases hc with _ | ⟨hc, _, _⟩
      · exact ⟨ha, hb, hdir, by dsimp only; omega⟩
      · rw [hst] at hc
        exact ElevatorState.noConfusion hc
  · rw [if_neg hstop]
    have hlt1 : e.minRequest < e.currentFloor - 1 := by
      by_contra hle
      push_neg at hle
      have hEq : e.minRequest = e.currentFloor - 1 := by omega
      apply hstop
      unfold shouldStop
      rw [if_neg (by exact fun hc => Direction.noConfusion hc), Bool.or_eq_true]
      rcases hEq ▸ hmk with h | h
      · refine Or.inr ?_
        have hBf : hasStopsBelow { e with currentFloor := e.currentFloor - 1 } = false := by
          unfold hasStopsBelow
          exact decide_eq_false (by dsimp only; omega)
        rw [Bool.and_eq_true, hBf]
        exact ⟨rfl, h⟩
      · exact Or.inl h
    refine ⟨hInv.lenUp, hInv.lenDown, by dsimp only; omega, by dsimp only; omega, hInv.boundsLo,
      hInv.boundsHi, hInv.emptyMin, hInv.emptyMax, ?_, ?_, ?_, ?_, ?_⟩
    · intro hs
      have hs2 : e.state = stateMovingUp := hs
      rw [hst] at hs2
      exact ElevatorState.noConfusion hs2
    · intro _
      exact ⟨hdir, hmk, hlt1⟩
    · intro hne hmin
      exact absurd hmk hmin
    · intro hne hmax
      obtain ⟨ha, hb, hc⟩ := hInv.phantomMax hne hmax
      rcases hc with _ | ⟨hc, _, _⟩
      · exact ⟨ha, hb, Or.inl hst⟩
      · rw [hst] at hc
        exact ElevatorState.noConfusion hc
    · intro hs
      have hs2 : e.state = stateIdle := hs
      rw [hst] at hs2
      exact ElevatorState.noConfusion hs2

/-- `Step` preserves the invariant. -/
theorem inv_step (e : Elevator) (hInv : Inv e) : Inv (step e) := by
  unfold step
  split
  · rename_i hs
    exact inv_stepDoorOpen e hInv hs
  · rename_i hs
    exact inv_stepMove_up e hInv hs
  · rename_i hs
    exact inv_stepMove_down e hInv hs
  · rename_i hs
    exact inv_stepIdle e hInv hs

/-- Build the invariant for a post-`AddRequest` state that marked the
in-range floor `rf` and widened the cached bounds to include it, given
the state/direction-dependent clauses. -/
theorem inv_mk_addBounds (e : Elevator) (rf : Int)
    (hlo : e.minFloor ≤ rf) (hhi : rf ≤ e.maxFloor)
    (hu : e.upStops.length = (e.maxFloor - e.minFloor + 1).toNat)
    (hd : e.downStops.length = (e.maxFloor - e.minFloor + 1).toNat)
    (hflo : e.minFloor ≤ e.currentFloor) (hfhi : e.currentFloor ≤ e.maxFloor)
    (hblo : ∀ f, marked e f → e.minRequest ≤ f)
    (hbhi : ∀ f, marked e f → f ≤ e.maxRequest)
    (e3 : Elevator)
    (hm3 : ∀ f, marked e3 f ↔ (marked e f ∨ f = rf))
    (h3lu : e3.upStops.length = e.upStops.length)
    (h3ld : e3.downStops.length = e.downStops.length)
    (h3mf : e3.minFloor = e.minFloor) (h3xf : e3.maxFloor = e.maxFloor)
    (h3cf : e3.currentFloor = e.currentFloor)
    (h3mr : e3.minRequest = if rf < e.minRequest then rf else e.minRequest)
    (h3xr : e3.maxRequest = if rf > e.maxRequest then rf else e.maxRequest)
    (m1 : e3.state = stateMovingUp →
      e3.direction = dirUp ∧ marked e3 e3.maxRequest ∧ e3.maxRequest > e.currentFloor)
    (m2 : e3.state = stateMovingDown →
      e3.direction = dirDown ∧ marked e3 e3.minRequest ∧ e3.minRequest < e.currentFloor)
    (p1 : (∃ f, marked e3 f) → ¬marked e3 e3.minRequest →
      marked e3 e3.maxRequest ∧ e.minFloor ≤ e3.minRequest ∧
        (e3.state = stateMovingUp ∨
          (e3.state = stateDoorOpen ∧ e3.direction = dirUp ∧
            e3.maxRequest > e.currentFloor)))
    (p2 : (∃ f, marked e3 f) → ¬marked e3 e3.maxRequest →
      marked e3 e3.minRequest ∧ e3.maxRequest ≤ e.maxFloor ∧
        (e3.state = stateMovingDown ∨
          (e3.state = stateDoorOpen ∧ e3.direction = dirDown ∧
            e3.minRequest < e.currentFloor)))
    (i1 : e3.state = stateIdle → e3.direction = dirIdle) :
    Inv e3 := by
  refine ⟨?_, ?_, ?_, ?_, ?_, ?_, ?_, ?_, ?_, ?_, ?_, ?_, i1⟩
  · rw [h3lu, h3mf, h3xf, hu]
  · rw [h3ld, h3mf, h3xf, hd]
  · rw [h3mf, h3cf]
    exact hflo
  · rw [h3xf, h3cf]
    exact hfhi
  · intro f hf
    rw [h3mr]
    rcases (hm3 f).mp hf with h | h
    · have := hblo f h
      split <;> omega
    · subst h
      split <;> omega
  · intro f hf
    rw [h3xr]
    rcases (hm3 f).mp hf with h | h
    · have := hbhi f h
      split <;> omega
    · subst h
      split <;> omega
  · intro hnone
    exact absurd ((hm3 rf).mpr (Or.inr rfl)) (hnone rf)
  · intro hnone
    exact absurd ((hm3 rf).mpr (Or.inr rfl)) (hnone rf)
  · intro hs
    obtain ⟨ha, hb, hc⟩ := m1 hs
    rw [h3cf] at *
    exact ⟨ha, hb, hc⟩
  · intro hs
    obtain ⟨ha, hb, hc⟩ := m2 hs
    rw [h3cf] at *
    exact ⟨ha, hb, hc⟩
  · intro hne hmin
    obtain ⟨ha, hb, hc⟩ := p1 hne hmin
    rw [h3mf, h3cf] at *
    exact ⟨ha, hb, hc⟩
  · intro hne hmax
    obtain ⟨ha, hb, hc⟩ := p2 hne hmax
    rw [h3xf, h3cf] at *
    exact ⟨ha, hb, hc⟩

theorem addRequestBounds_minRequest (e : Elevator) (rf : Int) :
    (addRequestBounds e rf).minRequest = if rf < e.minRequest then rf else e.minRequest := rfl

theorem addRequestBounds_maxRequest (e : Elevator) (rf : Int) :
    (addRequestBounds e rf).maxRequest = if rf > e.maxRequest then rf else e.maxRequest := rfl

/-- An idle car kicked by a request above its floor starts moving up. -/
theorem addRequestKick_idle_up (e : Elevator) (rf : Int)
    (h1 : e.state = stateIdle) (h2 : rf > e.currentFloor) :
    (addRequestKick e rf).state = stateMovingUp ∧ (addRequestKick e rf).direction = dirUp := by
  unfold addRequestKick
  rw [if_pos h1, if_pos h2]
  exact ⟨rfl, rfl⟩

/-- An idle car kicked by a request below its floor starts moving down. -/
theorem addRequestKick_idle_down (e : Elevator) (rf : Int)
    (h1 : e.state = stateIdle) (h2 : ¬rf > e.currentFloor) (h3 : rf < e.currentFloor) :
    (addRequestKick e rf).state = stateMovingDown ∧ (addRequestKick e rf).direction = dirDown := by
  unfold addRequestKick
  rw [if_pos h1, if_neg h2, if_pos h3]
  exact ⟨rfl, rfl⟩

/-- The kick block does nothing on a non-idle car. -/
theorem addRequestKick_noop (e : Elevator) (rf : Int) (h1 : ¬e.state = stateIdle) :
    addRequestKick e rf = e := by
  unfold addRequestKick
  rw [if_neg h1]

/-- Setting an in-range floor in a stop array marks exactly that floor in
addition to the existing marks. -/
theorem marked_stopWrite_iff (l : List Bool) (minF rf f : Int)
    (hlo : minF ≤ rf) (hlen : (rf - minF).toNat < l.length) :
    (stopTest (stopWrite l minF rf true) minF f = true ↔
      (stopTest l minF f = true ∨ f = rf)) := by
  by_cases hfe : f = rf
  · subst hfe
    rw [stopTest_stopWrite_true l minF f hlo hlen]
    simp
  · rw [stopTest_stopWrite_ne l minF f rf true hfe]
    constructor
    · exact Or.inl
    · rintro (h | h)
      · exact h
      · exact absurd h hfe

/-- `AddRequest` classification, hall call going up: the up array is
written, the down array untouched. -/
theorem addRequestMark_hall_up (e : Elevator) (r : Request)
    (ht : r.rtype = hallCall) (hd : r.direction = dirUp) :
    (addRequestMark e r).upStops = stopWrite e.upStops e.minFloor r.floor true ∧
    (addRequestMark e r).downStops = e.downStops := by
  obtain ⟨rf, rd, rt⟩ := r
  have ht2 : rt = hallCall := ht
  have hd2 : rd = dirUp := hd
  subst ht2
  subst hd2
  exact ⟨rfl, rfl⟩

/-- `AddRequest` classification, hall call not going up: the down array
is written, the up array untouched. -/
theorem addRequestMark_hall_down (e : Elevator) (r : Request)
    (ht : r.rtype = hallCall) (hd : ¬r.direction = dirUp) :
    (addRequestMark e r).upStops = e.upStops ∧
    (addRequestMark e r).downStops = stopWrite e.downStops e.minFloor r.floor true := by
  obtain ⟨rf, rd, rt⟩ := r
  have ht2 : rt = hallCall := ht
  subst ht2
  have hd2 : ¬rd = dirUp := hd
  unfold addRequestMark
  dsimp only
  rw [if_neg hd2]
  exact ⟨rfl, rfl⟩

/-- `AddRequest` classification, cab call above the car. -/
theorem addRequestMark_cab_up (e : Elevator) (r : Request)
    (ht : r.rtype = cabCall) (hgt : r.floor > e.currentFloor) :
    (addRequestMark e r).upStops = stopWrite e.upStops e.minFloor r.floor true ∧
    (addRequestMark e r).downStops = e.downStops := by
  obtain ⟨rf, rd, rt⟩ := r
  have ht2 : rt = cabCall := ht
  subst ht2
  have hgt2 : rf > e.currentFloor := hgt
  unfold addRequestMark
  dsimp only
  rw [if_pos hgt2]
  exact ⟨rfl, rfl⟩

/-- `AddRequest` classification, cab call below the car. -/
theorem addRequestMark_cab_down (e : Elevator) (r : Request)
    (ht : r.rtype = cabCall) (hngt : ¬r.floor > e.currentFloor)
    (hlt : r.floor < e.currentFloor) :
    (addRequestMark e r).upStops = e.upStops ∧
    (addRequestMark e r).downStops = stopWrite e.downStops e.minFloor r.floor true := by
  obtain ⟨rf, rd, rt⟩ := r
  have ht2 : rt = cabCall := ht
  subst ht2
  have hngt2 : ¬rf > e.currentFloor := hngt
  have hlt2 : rf < e.currentFloor := hlt
  unfold addRequestMark
  dsimp only
  rw [if_neg hngt2, if_pos hlt2]
  exact ⟨rfl, rfl⟩

/-- `AddRequest` classification, cab call at the car's floor: no array
is written at all. -/
theorem addRequestMark_cab_eq (e : Elevator) (r : Request)
    (ht : r.rtype = cabCall) (hngt : ¬r.floor > e.currentFloor)
    (hnlt : ¬r.floor < e.currentFloor) :
    addRequestMark e r = e := by
  obtain ⟨rf, rd, rt⟩ := r
  have ht2 : rt = cabCall := ht
  subst ht2
  have hngt2 : ¬rf > e.currentFloor := hngt
  have hnlt2 : ¬rf < e.currentFloor := hnlt
  unfold addRequestMark
  dsimp only
  rw [if_neg hngt2, if_neg hnlt2]

/-- The marking path of `AddRequest` preserves the invariant: `e1` is
`e` with the in-range floor `rf` marked, and `e3` is `e1` with the
cached bounds widened to `rf` and the idle-kick applied (described by
`hk`). -/
theorem inv_addRequest_pipeline (e e1 e3 : Elevator) (rf : Int) (hInv : Inv e)
    (hlo : e.minFloor ≤ rf) (hhi : rf ≤ e.maxFloor)
    (hm1 : ∀ f, marked e1 f ↔ (marked e f ∨ f = rf))
    (h1lu : e1.upStops.length = e.upStops.length)
    (h1ld : e1.downStops.length = e.downStops.length)
    (h1mf : e1.minFloor = e.minFloor)
    (h3u : e3.upStops = e1.upStops) (h3d : e3.downStops = e1.downStops)
    (h3mf : e3.minFloor = e1.minFloor) (h3xf : e3.maxFloor = e.maxFloor)
    (h3cf : e3.currentFloor = e.currentFloor)
    (h3mr : e3.minRequest = if rf < e.minRequest then rf else e.minRequest)
    (h3xr : e3.maxRequest = if rf > e.maxRequest then rf else e.maxRequest)
    (hk : (e.state = stateIdle ∧ rf > e.currentFloor ∧
            e3.state = stateMovingUp ∧ e3.direction = dirUp)
        ∨ (e.state = stateIdle ∧ rf < e.currentFloor ∧
            e3.state = stateMovingDown ∧ e3.direction = dirDown)
        ∨ (¬e.state = stateIdle ∧ e3.state = e.state ∧ e3.direction = e.direction)) :
    Inv e3 := by
  have hm3 : ∀ f, marked e3 f ↔ (marked e f ∨ f = rf) := by
    intro f
    rw [marked_congr e3 e1 h3u h3d h3mf f]
    exact hm1 f
  have h3lu : e3.upStops.length = e.upStops.length := by
    rw [h3u]
    exact h1lu
  have h3ld : e3.downStops.length = e.downStops.length := by
    rw [h3d]
    exact h1ld
  have h3mf2 : e3.minFloor = e.minFloor := by
    rw [h3mf]
    exact h1mf
  have hmkrf : marked e3 rf := (hm3 rf).mpr (Or.inr rfl)
  have hmx_of : marked e e.maxRequest → marked e3 e3.maxRequest := by
    intro h
    rw [h3xr]
    by_cases hc : rf > e.maxRequest
    · rw [if_pos hc]
      exact hmkrf
    · rw [if_neg hc]
      exact (hm3 _).mpr (Or.inl h)
  have hmn_of : marked e e.minRequest → marked e3 e3.minRequest := by
    intro h
    rw [h3mr]
    by_cases hc : rf < e.minRequest
    · rw [if_pos hc]
      exact hmkrf
    · rw [if_neg hc]
      exact (hm3 _).mpr (Or.inl h)
  have hmx_idle : e.state = stateIdle → ¬rf > e.maxRequest → marked e e.maxRequest := by
    intro hs hc
    by_contra hno
    have hne2 : ∃ f, marked e f := by
      by_contra hnone
      push_neg at hnone
      have h1 := hInv.emptyMax hnone
      omega
    rcases (hInv.phantomMax hne2 hno).2.2 with h | ⟨h1, _, _⟩
    · rw [hs] at h
      exact ElevatorState.noConfusion h
    · rw [hs] at h1
      exact ElevatorState.noConfusion h1
  have hmn_idle : e.state = stateIdle → ¬rf < e.minRequest → marked e e.minRequest := by
    intro hs hc
    by_contra hno
    have hne2 : ∃ f, marked e f := by
      by_contra hnone
      push_neg at hnone
      have h1 := hInv.emptyMin hnone
      omega
    rcases (hInv.phantomMin hne2 hno).2.2 with h | ⟨h1, _, _⟩
    · rw [hs] at h
      exact ElevatorState.noConfusion h
    · rw [hs] at h1
      exact ElevatorState.noConfusion h1
  rcases hk with ⟨hsI, hgt, h3st, h3dir⟩ | ⟨hsI, hlt, h3st, h3dir⟩ | ⟨hnI, h3st, h3dir⟩
  · -- idle car kicked upward
    have hmx : marked e3 e3.maxRequest := by
      by_cases hc : rf > e.maxRequest
      · rw [h3xr, if_pos hc]
        exact hmkrf
      · exact hmx_of (hmx_idle hsI hc)
    refine inv_mk_addBounds e rf hlo hhi hInv.lenUp hInv.lenDown hInv.floorLo hInv.floorHi
      hInv.boundsLo hInv.boundsHi e3 hm3 h3lu h3ld h3mf2 h3xf h3cf h3mr h3xr ?_ ?_ ?_ ?_ ?_
    · intro _
      refine ⟨h3dir, hmx, ?_⟩
      rw [h3xr]
      split <;> omega
    · intro hs
      rw [h3st] at hs
      exact ElevatorState.noConfusion hs
    · intro hne3 hmin3
      exfalso
      rw [h3mr] at hmin3
      by_cases hc : rf < e.minRequest
      · rw [if_pos hc] at hmin3
        exact hmin3 hmkrf
      · rw [if_neg hc] at hmin3
        exact hmin3 ((hm3 _).mpr (Or.inl (hmn_idle hsI hc)))
    · intro hne3 hmax3
      exact absurd hmx hmax3
    · intro hs
      rw [h3st] at hs
      exact ElevatorState.noConfusion hs
  · -- idle car kicked downward
    have hmn : marked e3 e3.minRequest := by
      by_cases hc : rf < e.minRequest
      · rw [h3mr, if_pos hc]
        exact hmkrf
      · exact hmn_of (hmn_idle hsI hc)
    refine inv_mk_addBounds e rf hlo hhi hInv.lenUp hInv.lenDown hInv.floorLo hInv.floorHi
      hInv.boundsLo hInv.boundsHi e3 hm3 h3lu h3ld h3mf2 h3xf h3cf h3mr h3xr ?_ ?_ ?_ ?_ ?_
    · intro hs
      rw [h3st] at hs
      exact ElevatorState.noConfusion hs
    · intro _
      refine ⟨h3dir, hmn, ?_⟩
      rw [h3mr]
      split <;> omega
    · intro _ hmin3
      exact absurd hmn hmin3
    · intro hne3 hmax3
      exfalso
      rw [h3xr] at hmax3
      by_cases hc : rf > e.maxRequest
      · rw [if_pos hc] at hmax3
        exact hmax3 hmkrf
      · rw [if_neg hc] at hmax3
        exact hmax3 ((hm3 _).mpr (Or.inl (hmx_idle hsI hc)))
    · intro hs
      rw [h3st] at hs
      exact ElevatorState.noConfusion hs
  · -- non-idle car, kick is a no-op
    by_cases hsU : e.state = stateMovingUp
    · obtain ⟨hdirU, hmkU, hgtU⟩ := hInv.movingUp hsU
      have hmx : marked e3 e3.maxRequest := hmx_of hmkU
      refine inv_mk_addBounds e rf hlo hhi hInv.lenUp hInv.lenDown hInv.floorLo hInv.floorHi
        hInv.boundsLo hInv.boundsHi e3 hm3 h3lu h3ld h3mf2 h3xf h3cf h3mr h3xr ?_ ?_ ?_ ?_ ?_
      · intro _
        refine ⟨by rw [h3dir]; exact hdirU, hmx, ?_⟩
        rw [h3xr]
        split <;> omega
      · intro hs
        rw [h3st, hsU] at hs
        exact ElevatorState.noConfusion hs
      · intro hne3 hmin3
        refine ⟨hmx, ?_, Or.inl (by rw [h3st]; exact hsU)⟩
        rw [h3mr] at hmin3 ⊢
        by_cases hc : rf < e.minRequest
        · rw [if_pos hc] at hmin3
          exact absurd hmkrf hmin3
        · rw [if_neg hc] at hmin3 ⊢
          have hnomr : ¬marked e e.minRequest := fun h => hmin3 ((hm3 _).mpr (Or.inl h))
          exact (hInv.phantomMin ⟨_, hmkU⟩ hnomr).2.1
      · intro _ hmax3
        exact absurd hmx hmax3
      · intro hs
        rw [h3st, hsU] at hs
        exact ElevatorState.noConfusion hs
    · by_cases hsD : e.state = stateMovingDown
      · obtain ⟨hdirD, hmkD, hltD⟩ := hInv.movingDown hsD
        have hmn : marked e3 e3.minRequest := hmn_of hmkD
        refine inv_mk_addBounds e rf hlo hhi hInv.lenUp hInv.lenDown hInv.floorLo hInv.floorHi
          hInv.boundsLo hInv.boundsHi e3 hm3 h3lu h3ld h3mf2 h3xf h3cf h3mr h3xr ?_ ?_ ?_ ?_ ?_
        · intro hs
          rw [h3st, hsD] at hs
          exact ElevatorState.noConfusion hs
        · intro _
          refine ⟨by rw [h3dir]; exact hdirD, hmn, ?_⟩
          rw [h3mr]
          split <;> omega
        · intro _ hmin3
          exact absurd hmn hmin3
        · intro hne3 hmax3
          refine ⟨hmn, ?_, Or.inl (by rw [h3st]; exact hsD)⟩
          rw [h3xr] at hmax3 ⊢
          by_cases hc : rf > e.maxRequest
          · rw [if_pos hc] at hmax3
            exact absurd hmkrf hmax3
          · rw [if_neg hc] at hmax3 ⊢
            have hnomx : ¬marked e e.maxRequest := fun h => hmax3 ((hm3 _).mpr (Or.inl h))
            exact (hInv.phantomMax ⟨_, hmkD⟩ hnomx).2.1
        · intro hs
          rw [h3st, hsD] at hs
          exact ElevatorState.noConfusion hs
      · -- car with the door open
        have hsO : e.state = stateDoorOpen := by
          cases hst : e.state
          · exact absurd hst hnI
          · exact absurd hst hsU
          · exact absurd hst hsD
          · rfl
        refine inv_mk_addBounds e rf hlo hhi hInv.lenUp hInv.lenDown hInv.floorLo hInv.floorHi
          hInv.boundsLo hInv.boundsHi e3 hm3 h3lu h3ld h3mf2 h3xf h3cf h3mr h3xr ?_ ?_ ?_ ?_ ?_
        · intro hs
          rw [h3st, hsO] at hs
          exact ElevatorState.noConfusion hs
        · intro hs
          rw [h3st, hsO] at hs
          exact ElevatorState.noConfusion hs
        · intro hne3 hmin3
          rw [h3mr] at hmin3
          by_cases hc : rf < e.minRequest
          · rw [if_pos hc] at hmin3
            exact absurd hmkrf hmin3
          · rw [if_neg hc] at hmin3
            have hnomr : ¬marked e e.minRequest := fun h => hmin3 ((hm3 _).mpr (Or.inl h))
            have hne2 : ∃ f, marked e f := by
              by_contra hnone
              push_neg at hnone
              have h1 := hInv.emptyMin hnone
              omega
            obtain ⟨ha, hb, hcl⟩ := hInv.phantomMin hne2 hnomr
            rcases hcl with hs | ⟨hs1, hdu, hgtc⟩
            · rw [hsO] at hs
              exact ElevatorState.noConfusion hs
            · refine ⟨hmx_of ha, ?_,
                Or.inr ⟨by rw [h3st]; exact hsO, by rw [h3dir]; exact hdu, ?_⟩⟩
              · rw [h3mr, if_neg hc]
                exact hb
              · rw [h3xr]
                split <;> omega
        · intro hne3 hmax3
          rw [h3xr] at hmax3
          by_cases hc : rf > e.maxRequest
          · rw [if_pos hc] at hmax3
            exact absurd hmkrf hmax3
          · rw [if_neg hc] at hmax3
            have hnomx : ¬marked e e.maxRequest := fun h => hmax3 ((hm3 _).mpr (Or.inl h))
            have hne2 : ∃ f, marked e f := by
              by_contra hnone
              push_neg at hnone
              have h1 := hInv.emptyMax hnone
              omega
            obtain ⟨ha, hb, hcl⟩ := hInv.phantomMax hne2 hnomx
            rcases hcl with hs | ⟨hs1, hdd, hltc⟩
            · rw [hsO] at hs
              exact ElevatorState.noConfusion hs
            · refine ⟨hmn_of ha, ?_,
                Or.inr ⟨by rw [h3st]; exact hsO, by rw [h3dir]; exact hdd, ?_⟩⟩
              · rw [h3xr, if_neg hc]
                exact hb
              · rw [h3mr]
                split <;> omega
        · intro hs
          rw [h3st, hsO] at hs
          exact ElevatorState.noConfusion hs

/-- The bounds-update and kick blocks of `AddRequest` applied after a
marking step `e1` preserve the invariant. -/
theorem inv_addRequest_classified (e e1 : Elevator) (r : Request) (hInv : Inv e)
    (hlo : e.minFloor ≤ r.floor) (hhi : r.floor ≤ e.maxFloor)
    (hexcl : ¬(r.floor = e.currentFloor ∧ (e.state = stateIdle ∨ e.state = stateDoorOpen)))
    (hm1 : ∀ f, marked e1 f ↔ (marked e f ∨ f = r.floor))
    (h1lu : e1.upStops.length = e.upStops.length)
    (h1ld : e1.downStops.length = e.downStops.length)
    (h1mf : e1.minFloor = e.minFloor) (h1xf : e1.maxFloor = e.maxFloor)
    (h1cf : e1.currentFloor = e.currentFloor)
    (h1mr : e1.minRequest = e.minRequest) (h1xr : e1.maxRequest = e.maxRequest)
    (h1st : e1.state = e.state) (h1dir : e1.direction = e.direction) :
    Inv (addRequestKick (addRequestBounds e1 r.floor) r.floor) := by
  have hbst : (addRequestBounds e1 r.floor).state = e.state := by
    rw [addRequestBounds_state, h1st]
  have hbcf : (addRequestBounds e1 r.floor).currentFloor = e.currentFloor := by
    rw [addRequestBounds_currentFloor, h1cf]
  have hbdir : (addRequestBounds e1 r.floor).direction = e.direction := by
    rw [addRequestBounds_direction, h1dir]
  refine inv_addRequest_pipeline e e1 _ r.floor hInv hlo hhi hm1 h1lu h1ld h1mf
    (by rw [addRequestKick_upStops, addRequestBounds_upStops])
    (by rw [addRequestKick_downStops, addRequestBounds_downStops])
    (by rw [addRequestKick_minFloor, addRequestBounds_minFloor])
    (by rw [addRequestKick_maxFloor, addRequestBounds_maxFloor, h1xf])
    (by rw [addRequestKick_currentFloor]; exact hbcf)
    (by rw [addRequestKick_minRequest, addRequestBounds_minRequest, h1mr])
    (by rw [addRequestKick_maxRequest, addRequestBounds_maxRequest, h1xr])
    ?_
  by_cases hIdle : e.state = stateIdle
  · rcases lt_trichotomy r.floor e.currentFloor with hlt | heq | hgt
    · have hnot : ¬r.floor > (addRequestBounds e1 r.floor).currentFloor := by
        rw [hbcf]
        omega
      obtain ⟨hs, hd⟩ := addRequestKick_idle_down (addRequestBounds e1 r.floor) r.floor
        (by rw [hbst]; exact hIdle) hnot (by rw [hbcf]; exact hlt)
      exact Or.inr (Or.inl ⟨hIdle, hlt, hs, hd⟩)
    · exact absurd ⟨heq, Or.inl hIdle⟩ hexcl
    · obtain ⟨hs, hd⟩ := addRequestKick_idle_up (addRequestBounds e1 r.floor) r.floor
        (by rw [hbst]; exact hIdle) (by rw [hbcf]; exact hgt)
      exact Or.inl ⟨hIdle, hgt, hs, hd⟩
  · have heq := addRequestKick_noop (addRequestBounds e1 r.floor) r.floor
      (by rw [hbst]; exact hIdle)
    refine Or.inr (Or.inr ⟨hIdle, ?_, ?_⟩)
    · rw [heq]
      exact hbst
    · rw [heq]
      exact hbdir

/-- `AddRequest` for a cab call at the current floor of a moving car:
no array is written, but the cached bounds still absorb the floor. The
invariant survives (possibly with a phantom bound). -/
theorem inv_addRequest_cabEqual (e : Elevator) (rf : Int) (hInv : Inv e)
    (hlo : e.minFloor ≤ rf) (hhi : rf ≤ e.maxFloor)
    (hrf : rf = e.currentFloor)
    (hmov : e.state = stateMovingUp ∨ e.state = stateMovingDown) :
    Inv (addRequestKick (addRequestBounds e rf) rf) := by
  have hnI : ¬(addRequestBounds e rf).state = stateIdle := by
    rw [addRequestBounds_state]
    rcases hmov with h | h <;> rw [h] <;> exact fun hc => ElevatorState.noConfusion hc
  rw [addRequestKick_noop _ _ hnI]
  have hm : ∀ f, marked (addRequestBounds e rf) f ↔ marked e f :=
    fun f => marked_congr _ e rfl rfl rfl f
  rcases hmov with hsU | hsD
  · obtain ⟨hdirU, hmkU, hgtU⟩ := hInv.movingUp hsU
    have hxr2 : (addRequestBounds e rf).maxRequest = e.maxRequest := by
      rw [addRequestBounds_maxRequest, if_neg (by omega)]
    refine ⟨?_, ?_, ?_, ?_, ?_, ?_, ?_, ?_, ?_, ?_, ?_, ?_, ?_⟩
    · exact hInv.lenUp
    · exact hInv.lenDown
    · exact hInv.floorLo
    · exact hInv.floorHi
    · intro f hf
      rw [addRequestBounds_minRequest]
      have := hInv.boundsLo f ((hm f).mp hf)
      split <;> omega
    · intro f hf
      rw [addRequestBounds_maxRequest]
      have := hInv.boundsHi f ((hm f).mp hf)
      split <;> omega
    · intro hnone
      exact absurd ((hm _).mpr hmkU) (hnone _)
    · intro hnone
      exact absurd ((hm _).mpr hmkU) (hnone _)
    · intro _
      refine ⟨?_, ?_, ?_⟩
      · rw [addRequestBounds_direction]
        exact hdirU
      · rw [hxr2]
        exact (hm _).mpr hmkU
      · rw [hxr2, addRequestBounds_currentFloor]
        exact hgtU
    · intro hs
      rw [addRequestBounds_state, hsU] at hs
      exact ElevatorState.noConfusion hs
    · intro hne hmin
      rw [addRequestBounds_minRequest] at hmin
      refine ⟨?_, ?_, Or.inl (by rw [addRequestBounds_state]; exact hsU)⟩
      · rw [hxr2]
        exact (hm _).mpr hmkU
      · by_cases hc : rf < e.minRequest
        · rw [addRequestBounds_minFloor, addRequestBounds_minRequest, if_pos hc]
          exact hlo
        · rw [if_neg hc] at hmin
          have hnomr : ¬marked e e.minRequest := fun h => hmin ((hm _).mpr h)
          rw [addRequestBounds_minFloor, addRequestBounds_minRequest, if_neg hc]
          exact (hInv.phantomMin ⟨_, hmkU⟩ hnomr).2.1
    · intro hne hmax
      rw [hxr2] at hmax
      exact absurd ((hm _).mpr hmkU) hmax
    · intro hs
      rw [addRequestBounds_state, hsU] at hs
      exact ElevatorState.noConfusion hs
  · obtain ⟨hdirD, hmkD, hltD⟩ := hInv.movingDown hsD
    have hmr2 : (addRequestBounds e rf).minRequest = e.minRequest := by
      rw [addRequestBounds_minRequest, if_neg (by omega)]
    refine ⟨?_, ?_, ?_, ?_, ?_, ?_, ?_, ?_, ?_, ?_, ?_, ?_, ?_⟩
    · exact hInv.lenUp
    · exact hInv.lenDown
    · exact hInv.floorLo
    · exact hInv.floorHi
    · intro f hf
      rw [addRequestBounds_minRequest]
      have := hInv.boundsLo f ((hm f).mp hf)
      split <;> omega
    · intro f hf
      rw [addRequestBounds_maxRequest]
      have := hInv.boundsHi f ((hm f).mp hf)
      split <;> omega
    · intro hnone
      exact absurd ((hm _).mpr hmkD) (hnone _)
    · intro hnone
      exact absurd ((hm _).mpr hmkD) (hnone _)
    · intro hs
      rw [addRequestBounds_state, hsD] at hs
      exact ElevatorState.noConfusion hs
    · intro _
      refine ⟨?_, ?_, ?_⟩
      · rw [addRequestBounds_direction]
        exact hdirD
      · rw [hmr2]
        exact (hm _).mpr hmkD
      · rw [hmr2, addRequestBounds_currentFloor]
        exact hltD
    · intro hne hmin
      rw [hmr2] at hmin
      exact absurd ((hm _).mpr hmkD) hmin
    · intro hne hmax
      rw [addRequestBounds_maxRequest] at hmax
      refine ⟨?_, ?_, Or.inl (by rw [addRequestBounds_state]; exact hsD)⟩
      · rw [hmr2]
        exact (hm _).mpr hmkD
      · by_cases hc : rf > e.maxRequest
        · rw [addRequestBounds_maxFloor, addRequestBounds_maxRequest, if_pos hc]
          exact hhi
        · rw [if_neg hc] at hmax
          have hnomx : ¬marked e e.maxRequest := fun h => hmax ((hm _).mpr h)
          rw [addRequestBounds_maxFloor, addRequestBounds_maxRequest, if_neg hc]
          exact (hInv.phantomMax ⟨_, hmkD⟩ hnomx).2.1
    · intro hs
      rw [addRequestBounds_state, hsD] at hs
      exact ElevatorState.noConfusion hs

/-- `AddRequest` preserves the invariant. -/
theorem inv_addRequest (e : Elevator) (r : Request) (hInv : Inv e) :
    Inv (addRequest e r) := by
  unfold addRequest
  split
  · exact hInv
  · rename_i hoor
    push_neg at hoor
    obtain ⟨hlo, hhi⟩ := hoor
    split
    · rename_i hod
      obtain ⟨heq, hstate⟩ := hod
      refine inv_openDoor e hInv.lenUp hInv.lenDown hInv.floorLo hInv.floorHi hInv.boundsLo
        hInv.boundsHi hInv.emptyMin hInv.emptyMax ?_ ?_
      · intro hne hmin
        obtain ⟨ha, hb, hcl⟩ := hInv.phantomMin hne hmin
        rcases hcl with hs | ⟨hs1, hdu, hgtc⟩
        · exfalso
          rcases hstate with h | h <;> rw [h] at hs <;> exact ElevatorState.noConfusion hs
        · exact ⟨ha, hb, hdu, le_of_lt hgtc⟩
      · intro hne hmax
        obtain ⟨ha, hb, hcl⟩ := hInv.phantomMax hne hmax
        rcases hcl with hs | ⟨hs1, hdd, hltc⟩
        · exfalso
          rcases hstate with h | h <;> rw [h] at hs <;> exact ElevatorState.noConfusion hs
        · exact ⟨ha, hb, hdd, le_of_lt hltc⟩
    · rename_i hod
      cases hrt : r.rtype
      · -- hall call
        by_cases hdu : r.direction = dirUp
        · obtain ⟨hup, hdown⟩ := addRequestMark_hall_up e r hrt hdu
          have hlen : (r.floor - e.minFloor).toNat < e.upStops.length := by
            rw [hInv.lenUp]
            omega
          refine inv_addRequest_classified e (addRequestMark e r) r hInv hlo hhi hod ?_ ?_ ?_
            (addRequestMark_minFloor e r) (addRequestMark_maxFloor e r)
            (addRequestMark_currentFloor e r) (addRequestMark_minRequest e r)
            (addRequestMark_maxRequest e r) (addRequestMark_state e r)
            (addRequestMark_direction e r)
          · intro f
            unfold marked
            rw [hup, hdown, addRequestMark_minFloor,
              marked_stopWrite_iff e.upStops e.minFloor r.floor f hlo hlen]
            tauto
          · rw [hup, stopWrite_length]
          · rw [hdown]
        · obtain ⟨hup, hdown⟩ := addRequestMark_hall_down e r hrt hdu
          have hlen : (r.floor - e.minFloor).toNat < e.downStops.length := by
            rw [hInv.lenDown]
            omega
          refine inv_addRequest_classified e (addRequestMark e r) r hInv hlo hhi hod ?_ ?_ ?_
            (addRequestMark_minFloor e r) (addRequestMark_maxFloor e r)
            (addRequestMark_currentFloor e r) (addRequestMark_minRequest e r)
            (addRequestMark_maxRequest e r) (addRequestMark_state e r)
            (addRequestMark_direction e r)
          · intro f
            unfold marked
            rw [hup, hdown, addRequestMark_minFloor,
              marked_stopWrite_iff e.downStops e.minFloor r.floor f hlo hlen]
            tauto
          · rw [hup]
          · rw [hdown, stopWrite_length]
      · -- cab call
        rcases lt_trichotomy r.floor e.currentFloor with hlt | heqf | hgt
        · obtain ⟨hup, hdown⟩ := addRequestMark_cab_down e r hrt (by omega) hlt
          have hlen : (r.floor - e.minFloor).toNat < e.downStops.length := by
            rw [hInv.lenDown]
            omega
          refine inv_addRequest_classified e (addRequestMark e r) r hInv hlo hhi hod ?_ ?_ ?_
            (addRequestMark_minFloor e r) (addRequestMark_maxFloor e r)
            (addRequestMark_currentFloor e r) (addRequestMark_minRequest e r)
            (addRequestMark_maxRequest e r) (addRequestMark_state e r)
            (addRequestMark_direction e r)
          · intro f
            unfold marked
            rw [hup, hdown, addRequestMark_minFloor,
              marked_stopWrite_iff e.downStops e.minFloor r.floor f hlo hlen]
            tauto
          · rw [hup]
          · rw [hdown, stopWrite_length]
        · have heqm : addRequestMark e r = e := addRequestMark_cab_eq e r hrt (by omega) (by omega)
          rw [heqm]
          have hmov : e.state = stateMovingUp ∨ e.state = stateMovingDown := by
            cases hst : e.state
            · exact absurd ⟨heqf, Or.inl hst⟩ hod
            · exact Or.inl rfl
            · exact Or.inr rfl
            · exact absurd ⟨heqf, Or.inr hst⟩ hod
          exact inv_addRequest_cabEqual e r.floor hInv hlo hhi heqf hmov
        · obtain ⟨hup, hdown⟩ := addRequestMark_cab_up e r hrt hgt
          have hlen : (r.floor - e.minFloor).toNat < e.upStops.length := by
            rw [hInv.lenUp]
            omega
          refine inv_addRequest_classified e (addRequestMark e r) r hInv hlo hhi hod ?_ ?_ ?_
            (addRequestMark_minFloor e r) (addRequestMark_maxFloor e r)
            (addRequestMark_currentFloor e r) (addRequestMark_minRequest e r)
            (addRequestMark_maxRequest e r) (addRequestMark_state e r)
            (addRequestMark_direction e r)
          · intro f
            unfold marked
            rw [hup, hdown, addRequestMark_minFloor,
              marked_stopWrite_iff e.upStops e.minFloor r.floor f hlo hlen]
            tauto
          · rw [hup, stopWrite_length]
          · rw [hdown]

/-- States of a flag-array car reachable from `NewElevator id minF maxF`
by any finite interleaving of `AddRequest` and `Step` calls. -/
inductive Reach (id minF maxF : Int) : Elevator → Prop where
  | init : Reach id minF maxF (newElevator id minF maxF)
  | add (e : Elevator) (r : Request) : Reach id minF maxF e →
      Reach id minF maxF (addRequest e r)
  | tick (e : Elevator) : Reach id minF maxF e → Reach id minF maxF (step e)

/-- Every reachable state of a car over a non-empty floor range
satisfies the inductive invariant. -/
theorem reach_inv (id minF maxF : Int) (hfl : minF ≤ maxF) (e : Elevator)
    (hr : Reach id minF maxF e) : Inv e := by
  induction hr with
  | init => exact inv_newElevator id minF maxF hfl
  | add e r _ ih => exact inv_addRequest e r ih
  | tick e _ ih => exact inv_step e ih

/-- C3: on every state reachable from `NewElevator` by `AddRequest` and
`Step` calls, `minFloor ≤ currentFloor ≤ maxFloor` holds — the car
never travels past the building bounds even though `stepMove` has no
bounds check and movement is steered only by the cached
`minRequest`/`maxRequest` bounds. -/
theorem claim3_floor_within_bounds (id minF maxF : Int) (e : Elevator)
    (hfl : minF ≤ maxF) (hr : Reach id minF maxF e) :
    e.minFloor ≤ e.currentFloor ∧ e.currentFloor ≤ e.maxFloor := by
  have hInv := reach_inv id minF maxF hfl e hr
  exact ⟨hInv.floorLo, hInv.floorHi⟩

theorem claim3_witness :
    (step (addRequest (newElevator 7 1 5) ⟨3, dirUp, hallCall⟩)).minFloor ≤
        (step (addRequest (newElevator 7 1 5) ⟨3, dirUp, hallCall⟩)).currentFloor ∧
      (step (addRequest (newElevator 7 1 5) ⟨3, dirUp, hallCall⟩)).currentFloor ≤
        (step (addRequest (newElevator 7 1 5) ⟨3, dirUp, hallCall⟩)).maxFloor :=
  claim3_floor_within_bounds 7 1 5 _ (by decide)
    (Reach.tick _ (Reach.add _ _ Reach.init))

/-- C4: on every reachable state, `HasPendingRequests` (a test on the
cached bounds) answers `true` exactly when some floor is marked in one
of the two stop arrays. -/
theorem claim4_pending_iff_marked (id minF maxF : Int) (e : Elevator)
    (hfl : minF ≤ maxF) (hr : Reach id minF maxF e) :
    (hasPendingRequests e = true ↔ ∃ f, marked e f) := by
  have hInv := reach_inv id minF maxF hfl e hr
  constructor
  · intro hp
    unfold hasPendingRequests at hp
    have hle : e.minRequest ≤ e.maxRequest := of_decide_eq_true hp
    by_contra hnone
    push_neg at hnone
    have h1 := hInv.emptyMin hnone
    have h2 := hInv.emptyMax hnone
    have h3 := hInv.floorLo
    have h4 := hInv.floorHi
    omega
  · rintro ⟨f, hf⟩
    have h1 := hInv.boundsLo f hf
    have h2 := hInv.boundsHi f hf
    unfold hasPendingRequests
    exact decide_eq_true (by omega)

theorem claim4_witness :
    (hasPendingRequests (addRequest (newElevator 7 1 5) ⟨3, dirUp, hallCall⟩) = true ↔
      ∃ f, marked (addRequest (newElevator 7 1 5) ⟨3, dirUp, hallCall⟩) f) :=
  claim4_pending_iff_marked 7 1 5 _ (by decide) (Reach.add _ _ Reach.init)

/-- C6: on every reachable state in a moving state, `Step` advances the
floor by exactly one in the travel direction, and the car opens its
door at the new floor exactly when the new floor is marked in the
matching stop array, or no marked floor lies strictly further in the
travel direction and the new floor is marked in the opposite array. -/
theorem claim6_move_then_stop (id minF maxF : Int) (e : Elevator)
    (hfl : minF ≤ maxF) (hr : Reach id minF maxF e) :
    (e.state = stateMovingUp →
      (step e).currentFloor = e.currentFloor + 1 ∧
        ((step e).state = stateDoorOpen ↔
          (stopTest e.upStops e.minFloor (e.currentFloor + 1) = true ∨
            (¬(∃ f, marked e f ∧ f > e.currentFloor + 1) ∧
              stopTest e.downStops e.minFloor (e.currentFloor + 1) = true)))) ∧
    (e.state = stateMovingDown →
      (step e).currentFloor = e.currentFloor - 1 ∧
        ((step e).state = stateDoorOpen ↔
          (stopTest e.downStops e.minFloor (e.currentFloor - 1) = true ∨
            (¬(∃ f, marked e f ∧ f < e.currentFloor - 1) ∧
              stopTest e.upStops e.minFloor (e.currentFloor - 1) = true)))) := by
  have hInv := reach_inv id minF maxF hfl e hr
  constructor
  · intro hs
    obtain ⟨hdir, hmk, hgt⟩ := hInv.movingUp hs
    have hstep : step e = stepMove e dirUp := by
      unfold step
      rw [hs]
    have hA : hasStopsAbove { e with currentFloor := e.currentFloor + 1 } = true ↔
        (∃ f, marked e f ∧ f > e.currentFloor + 1) := by
      unfold hasStopsAbove
      rw [decide_eq_true_iff]
      dsimp only
      constructor
      · intro h
        exact ⟨e.maxRequest, hmk, h⟩
      · rintro ⟨f, hf, hgt2⟩
        have := hInv.boundsHi f hf
        omega
    have hnA : (!hasStopsAbove { e with currentFloor := e.currentFloor + 1 }) = true ↔
        ¬(∃ f, marked e f ∧ f > e.currentFloor + 1) := by
      constructor
      · intro h hex
        rw [hA.mpr hex] at h
        exact Bool.noConfusion h
      · intro h
        cases hb : hasStopsAbove { e with currentFloor := e.currentFloor + 1 }
        · rfl
        · exact absurd (hA.mp hb) h
    have hcond : shouldStop { e with currentFloor := e.currentFloor + 1 } dirUp = true ↔
        (stopTest e.upStops e.minFloor (e.currentFloor + 1) = true ∨
          (¬(∃ f, marked e f ∧ f > e.currentFloor + 1) ∧
            stopTest e.downStops e.minFloor (e.currentFloor + 1) = true)) := by
      unfold shouldStop
      rw [if_pos rfl]
      dsimp only
      rw [Bool.or_eq_true, Bool.and_eq_true, hnA]
    constructor
    · rw [hstep]
      unfold stepMove
      simp only [reduceCtorEq, reduceIte]
      split
      · rw [openDoor_currentFloor]
      · rfl
    · rw [hstep]
      unfold stepMove
      simp only [reduceCtorEq, reduceIte]
      by_cases hstop : shouldStop { e with currentFloor := e.currentFloor + 1 } dirUp = true
      · rw [if_pos hstop, openDoor_state]
        exact ⟨fun _ => hcond.mp hstop, fun _ => rfl⟩
      · rw [if_neg hstop]
        constructor
        · intro h
          exfalso
          have h2 : e.state = stateDoorOpen := h
          rw [hs] at h2
          exact ElevatorState.noConfusion h2
        · intro h
          exact absurd (hcond.mpr h) hstop
  · intro hs
    obtain ⟨hdir, hmk, hlt⟩ := hInv.movingDown hs
    have hstep : step e = stepMove e dirDown := by
      unfold step
      rw [hs]
    have hB : hasStopsBelow { e with currentFloor := e.currentFloor - 1 } = true ↔
        (∃ f, marked e f ∧ f < e.currentFloor - 1) := by
      unfold hasStopsBelow
      rw [decide_eq_true_iff]
      dsimp only
      constructor
      · intro h
        exact ⟨e.minRequest, hmk, h⟩
      · rintro ⟨f, hf, hlt2⟩
        have := hInv.boundsLo f hf
        omega
    have hnB : (!hasStopsBelow { e with currentFloor := e.currentFloor - 1 }) = true ↔
        ¬(∃ f, marked e f ∧ f < e.currentFloor - 1) := by
      constructor
      · intro h hex
        rw [hB.mpr hex] at h
        exact Bool.noConfusion h
      · intro h
        cases hb : hasStopsBelow { e with currentFloor := e.currentFloor - 1 }
        · rfl
        · exact absurd (hB.mp hb) h
    have hcond : shouldStop { e with currentFloor := e.currentFloor - 1 } dirDown = true ↔
        (stopTest e.downStops e.minFloor (e.currentFloor - 1) = true ∨
          (¬(∃ f, marked e f ∧ f < e.currentFloor - 1) ∧
            stopTest e.upStops e.minFloor (e.currentFloor - 1) = true)) := by
      unfold shouldStop
      rw [if_neg (fun hc => Direction.noConfusion hc)]
      dsimp only
      rw [Bool.or_eq_true, Bool.and_eq_true, hnB]
    constructor
    · rw [hstep]
      unfold stepMove
      simp only [reduceCtorEq, reduceIte]
      split
      · rw [openDoor_currentFloor]
      · rfl
    · rw [hstep]
      unfold stepMove
      simp only [reduceCtorEq, reduceIte]
      by_cases hstop : shouldStop { e with currentFloor := e.currentFloor - 1 } dirDown = true
      · rw [if_pos hstop, openDoor_state]
        exact ⟨fun _ => hcond.mp hstop, fun _ => rfl⟩
      · rw [if_neg hstop]
        constructor
        · intro h
          exfalso
          have h2 : e.state = stateDoorOpen := h
          rw [hs] at h2
          exact ElevatorState.noConfusion h2
        · intro h
          exact absurd (hcond.mpr h) hstop

theorem claim6_witness :
    (step (addRequest (newElevator 7 1 5) ⟨3, dirUp, hallCall⟩)).currentFloor =
      (addRequest (newElevator 7 1 5) ⟨3, dirUp, hallCall⟩).currentFloor + 1 :=
  ((claim6_move_then_stop 7 1 5 _ (by decide) (Reach.add _ _ Reach.init)).1 (by decide)).1

end ElevatorSim
